import Mathlib

/-!
Verification of the codespell core engine (`codespell_lib/_codespell.py`).

Strings are modelled as `List Char` (Python code points).  Python's
ASCII-oriented `str.lower`, `str.upper`, `str.capitalize` and `str.strip`
are modelled with Lean's ASCII `Char.toLower`/`Char.toUpper` and
`Char.isWhitespace`.  Regular expressions are modelled concretely for the
two patterns the engine compiles: the default word pattern (a character
class, so `findall` is the list of maximal runs of word characters) and
the default URI/email pattern (modelled by a position scanner that mirrors
the backtracking behaviour of the Python pattern).  The optional
`--ignore-regex` substitution is disabled (`None` in the source's default
configuration).  Interactive standard input is modelled as a list of
input lines consumed by the prompt loops; output (printing) is not
modelled, but every piece of state the program keeps (the misspelling
table, the line buffer, the changed flag, the bad-word counter) is.
-/

namespace Codespell

/-- Python strings as lists of code points. -/
abbrev Str := List Char

/-- Convert a Lean string literal to the model representation. -/
def str (s : String) : Str := s.data

/-- Python `\w` (ASCII model): alphanumeric or underscore.  Used by the
`\b` boundaries inside the default URI/email pattern and by the
`\b%s\b` fix pattern of `parse_file`. -/
def pyWord (c : Char) : Bool := c.isAlphanum || c = '_'

/-- The character class of the default word pattern
(`word_regex_def = "[\\w\\-'’`]+"`): alphanumerics, underscore, hyphen,
straight apostrophe (code point 39), curly apostrophe (8217) and
backtick (96). -/
def wordChar (c : Char) : Bool :=
  c.isAlphanum || c = '_' || c = '-' || c.toNat = 39 || c.toNat = 8217 || c.toNat = 96

/-- Python `str.lower` (ASCII model). -/
def pyLower (l : Str) : Str := l.map Char.toLower

/-- Python `str.upper` (ASCII model). -/
def pyUpper (l : Str) : Str := l.map Char.toUpper

/-- Python `str.strip()` with no argument: remove leading and trailing
whitespace. -/
def pyStrip (l : Str) : Str :=
  ((l.dropWhile Char.isWhitespace).reverse.dropWhile Char.isWhitespace).reverse

/-- Python `str.capitalize` (ASCII model): first character upper-cased,
the rest lower-cased. -/
def pyCapitalize : Str → Str
  | [] => []
  | c :: rest => c.toUpper :: rest.map Char.toLower

/-- Python `s.split(",")`: split on every comma, keeping empty pieces. -/
def splitCommaGo : Str → Str → List Str
  | [], acc => [acc.reverse]
  | ',' :: rest, acc => acc.reverse :: splitCommaGo rest []
  | c :: rest, acc => splitCommaGo rest (c :: acc)

/-- Python `s.split(",")`. -/
def splitComma (l : Str) : List Str := splitCommaGo l []

/-- Python `line.split("->")`: split on every non-overlapping occurrence of
the two-character separator, scanning left to right. -/
def splitArrowGo : Str → Str → List Str
  | [], acc => [acc.reverse]
  | [c], acc => [(c :: acc).reverse]
  | c1 :: c2 :: rest, acc =>
    if c1 = '-' ∧ c2 = '>' then acc.reverse :: splitArrowGo rest []
    else splitArrowGo (c2 :: rest) (c1 :: acc)

/-- Python `line.split("->")`. -/
def splitArrow (l : Str) : List Str := splitArrowGo l []

/-- Python `s.rfind(c)` as an option: the index of the last occurrence of
the character `c`, if any. -/
def lastIdxOf (c : Char) : Str → Option Nat
  | [] => none
  | x :: xs =>
    match lastIdxOf c xs with
    | some k => some (k + 1)
    | none => if x = c then some 0 else none

/-- The `Misspelling` record of the source: `data` (the correction
candidates, comma separated), `fix` (apply automatically) and `reason`. -/
structure Missp where
  data : Str
  fix : Bool
  reason : Str
  deriving DecidableEq, Repr

/-- The in-memory misspelling table (`Dict[str, Misspelling]`), keyed by
the lower-cased wrong word. -/
abbrev Dict := List (Str × Missp)

/-- Python `misspellings[key]` lookup (`key in misspellings` is
`(dictFind d key).isSome`). -/
def dictFind (d : Dict) (k : Str) : Option Missp :=
  (d.find? (fun p => p.1 = k)).map (fun p => p.2)

/-- Overwrite the value stored under an existing key. -/
def dictSet (d : Dict) (k : Str) (v : Missp) : Dict :=
  d.map (fun p => if p.1 = k then (k, v) else p)

/-- Python `misspellings[key] = v`: replace if present, append otherwise. -/
def dictInsert (d : Dict) (k : Str) (v : Missp) : Dict :=
  if (d.find? (fun p => p.1 = k)).isSome then dictSet d k v else d ++ [(k, v)]

/-- The data-parsing part of `build_dict`: given the (already
lower-cased) right-hand side of a `wrong->data` line, strip it, find the
last comma (`data.rfind(",")`) and build the `Misspelling`:
no comma gives an automatic fix, a trailing comma gives a non-automatic
fix with no reason, and any other last comma splits correction from
reason (the reason being stripped). -/
def parseData (data0 : Str) : Missp :=
  let data := pyStrip data0
  match lastIdxOf ',' data with
  | none => ⟨data, true, []⟩
  | some f =>
    if f = data.length - 1 then ⟨data.take f, false, []⟩
    else ⟨data.take f, false, pyStrip (data.drop (f + 1))⟩

/-- One line of `build_dict`: `[key, data] = line.split("->")` (which
raises, modelled as `none`, unless the split yields exactly two parts),
lower-case both sides, skip keys in the ignore set, and store the parsed
entry. -/
def buildDictLine (ignore : List Str) (d : Dict) (line : Str) : Option Dict :=
  match splitArrow line with
  | [key0, data0] =>
    let key := pyLower key0
    if key ∈ ignore then some d
    else some (dictInsert d key (parseData (pyLower data0)))
  | _ => none

/-- `build_dict` over the lines of one dictionary source; `none` is the
propagated fatal format error. -/
def buildDict (ignore : List Str) : Dict → List Str → Option Dict
  | d, [] => some d
  | d, line :: rest =>
    match buildDictLine ignore d line with
    | none => none
    | some d' => buildDict ignore d' rest

/-- `fix_case(word, fixword)`: if the word equals its own capitalization,
capitalize every stripped comma-separated candidate and re-join with
`", "`; otherwise if the word equals its own upper-casing, upper-case the
stored string; otherwise return the stored string unchanged. -/
def fixCase (word fixword : Str) : Str :=
  if word = pyCapitalize word then
    List.intercalate [',', ' ']
      ((splitComma fixword).map (fun w => pyCapitalize (pyStrip w)))
  else if word = pyUpper word then pyUpper fixword
  else fixword

/-! ### Word extraction

`word_regex.findall` / `word_regex.finditer` for the default word pattern
`[\w\-'’`]+`: the matches are exactly the maximal runs of `wordChar`
characters, in line order.  Only the matched text (`match.group()`) is
observable by the engine's logic, so a match is modelled as its text. -/

/-- Flush a (reversed) accumulator of word characters in front of a token
list. -/
def flushAcc (acc : Str) (ts : List Str) : List Str :=
  if acc.isEmpty then ts else acc.reverse :: ts

/-- Tokenizer worker: walk the line, accumulating the current run of word
characters. -/
def tokensGo : Str → Str → List Str
  | [], acc => flushAcc acc []
  | c :: rest, acc =>
    if wordChar c then tokensGo rest (c :: acc)
    else flushAcc acc (tokensGo rest [])

/-- `word_regex.findall(text)` (with `ignore_word_regex` disabled, this is
also `extract_words` and the groups of `extract_words_iter`). -/
def tokenize (l : Str) : List Str := tokensGo l []

/-! ### The default URI/email pattern

`uri_regex_def = (\b(?:https?|[ts]?ftp|file|git|smb)://[^\s]+(?=$|\s)|
\b[\w.%+-]+@[\w.-]+\b)`.  The scanner below mirrors the Python engine's
behaviour on this pattern: at each position it first tries the URL
alternative, then the email alternative; greedy character-class runs are
maximal, and the final `\b` of the email alternative backtracks to the
largest run end that is a word boundary. -/

/-- Whether the character at index `i` is a Python `\w` character
(out-of-range positions count as non-word, as for `\b` at the ends). -/
def wordAtPos (l : Str) (i : Nat) : Bool :=
  match l[i]? with
  | some c => pyWord c
  | none => false

/-- Python `\b` at position `i` of `l`. -/
def boundaryAt (l : Str) (i : Nat) : Bool :=
  match i with
  | 0 => wordAtPos l 0
  | j + 1 => wordAtPos l j != wordAtPos l (j + 1)

/-- Does `pat` occur literally at the head of `rest`? -/
def leadsWith : Str → Str → Bool
  | [], _ => true
  | _ :: _, [] => false
  | p :: ps, c :: cs => p = c && leadsWith ps cs

/-- The scheme alternatives of the URL branch, each followed by `://`. -/
def uriSchemes : List Str :=
  [str "https", str "http", str "tftp", str "sftp", str "ftp",
   str "file", str "git", str "smb"]

/-- The URL alternative `\bscheme://[^\s]+(?=$|\s)` attempted at position
`i`: a word boundary, a scheme followed by `://`, then a non-empty maximal
run of non-whitespace characters (whose maximality makes the lookahead
`(?=$|\s)` automatic).  Returns the end position of the match. -/
def matchURLAt (l : Str) (i : Nat) : Option Nat :=
  if boundaryAt l i then
    match uriSchemes.find? (fun sch => leadsWith (sch ++ [':', '/', '/']) (l.drop i)) with
    | some sch =>
      let j := i + sch.length + 3
      let body := (l.drop j).takeWhile (fun c => !c.isWhitespace)
      if body.length = 0 then none else some (j + body.length)
    | none => none
  else none

/-- The local-part class `[\w.%+-]` of the email alternative. -/
def localChar (c : Char) : Bool :=
  pyWord c || c = '.' || c = '%' || c = '+' || c = '-'

/-- The domain class `[\w.-]` of the email alternative. -/
def domainChar (c : Char) : Bool := pyWord c || c = '.' || c = '-'

/-- Backtracking of the final `\b` of the email alternative: the largest
end position `p + k` with `1 ≤ k ≤ n` that is a word boundary. -/
def findEndBoundary (l : Str) (p : Nat) : Nat → Option Nat
  | 0 => none
  | m + 1 => if boundaryAt l (p + m + 1) then some (p + m + 1) else findEndBoundary l p m

/-- The email alternative `\b[\w.%+-]+@[\w.-]+\b` attempted at position
`i`.  Returns the end position of the match. -/
def matchEmailAt (l : Str) (i : Nat) : Option Nat :=
  if boundaryAt l i then
    let lp := (l.drop i).takeWhile localChar
    if lp.length = 0 then none
    else if l[i + lp.length]? = some '@' then
      let p := i + lp.length + 1
      let dom := (l.drop p).takeWhile domainChar
      if dom.length = 0 then none else findEndBoundary l p dom.length
    else none
  else none

/-- One attempt of the whole URI/email pattern at position `i` (URL
alternative first, in the pattern's alternation order). -/
def matchURIAt (l : Str) (i : Nat) : Option Nat :=
  match matchURLAt l i with
  | some j => some j
  | none => matchEmailAt l i

/-- The scan loop of `finditer`/`findall`/`sub`: try each position left to
right, and continue after the end of each match.  `fuel` bounds the number
of steps (the position strictly increases, so `l.length + 1` suffices). -/
def scanFrom (l : Str) : Nat → Nat → List (Nat × Nat)
  | _, 0 => []
  | k, fuel + 1 =>
    if k < l.length then
      match matchURIAt l k with
      | some j => (k, j) :: scanFrom l j fuel
      | none => scanFrom l (k + 1) fuel
    else []

/-- The (start, end) spans of all URI/email matches on the line. -/
def scanURIs (l : Str) : List (Nat × Nat) := scanFrom l 0 (l.length + 1)

/-- The sub-list of `l` from index `a` (inclusive) to `b` (exclusive). -/
def slice (l : Str) (a b : Nat) : Str := (l.drop a).take (b - a)

/-- `re.findall(uri_regex, line)`: the matched texts (the pattern is one
group wrapping the whole alternation, so each group is the whole match). -/
def uriFindall (l : Str) : List Str :=
  (scanURIs l).map (fun se => slice l se.1 se.2)

/-- Replace each span of `spans` (relative to absolute positions of `l`,
starting from position `pos`) with a single copy of `rep`; the worker of
`re.sub`. -/
def subSpansAux (l : Str) (rep : Str) : Nat → List (Nat × Nat) → Str
  | pos, [] => l.drop pos
  | pos, (s, e) :: rest => slice l pos s ++ rep ++ subSpansAux l rep e rest

/-- `uri_regex.sub(" ", line)`: replace every URI/email match with a
single space. -/
def uriSub (l : Str) : Str := subSpansAux l [' '] 0 (scanURIs l)

/-! ### `apply_uri_ignore_words` -/

/-- The inner removal loop of `apply_uri_ignore_words`: scan the match
list and delete the first match whose text equals `w` (the `enumerate` /
slice / `break` idiom of the source); the list is unchanged when no match
has that text. -/
def removeFirstEq (w : Str) : List Str → List Str
  | [] => []
  | m :: rest => if m = w then rest else m :: removeFirstEq w rest

/-- `apply_uri_ignore_words(check_matches, line, ...)`: if the ignore set
is empty return the matches unchanged; otherwise, for each URI/email
found on the line and for each word extracted from it that is in the
ignore set, remove the first match with that text. -/
def applyUriIgnoreWords (cms : List Str) (line : Str) (uig : List Str) : List Str :=
  if uig = [] then cms
  else
    (uriFindall line).foldl
      (fun acc uri =>
        (tokenize uri).foldl
          (fun acc w => if w ∈ uig then removeFirstEq w acc else acc) acc)
      cms

/-! ### The `re.sub(r"\b%s\b" % word, fixword, lines[i])` fix -/

/-- Worker for the global whole-word substitution: walk the original line
position by position; at a position where `\b word \b` matches, emit the
replacement and continue after the literal, otherwise emit the original
character and move one position right. -/
def subWordAllGo (w fw orig : Str) : Nat → Nat → Str
  | _, 0 => []
  | i, fuel + 1 =>
    if i < orig.length then
      if boundaryAt orig i ∧ leadsWith w (orig.drop i) ∧
          boundaryAt orig (i + w.length) ∧ w ≠ [] then
        fw ++ subWordAllGo w fw orig (i + w.length) fuel
      else orig.getD i ' ' :: subWordAllGo w fw orig (i + 1) fuel
    else []

/-- `re.sub(r"\b%s\b" % word, fixword, line)`: replace every
non-overlapping whole-word occurrence of the literal `word` (its
characters come from the word pattern, none of which is a regex
metacharacter) by `fixword`. -/
def subWordAll (w fw line : Str) : Str := subWordAllGo w fw line 0 (line.length + 1)

/-! ### `ask_for_word_fix`

Standard input is a list of lines; `readline()` at end of input returns
the empty string, which both prompt loops treat as a blank answer. -/

/-- Python `int(n)` on an already-stripped string (ASCII digits with an
optional sign; underscore digit separators are not modelled). -/
def pyDigits? : Str → Option Nat
  | [] => none
  | ds => if ds.all Char.isDigit then some (ds.foldl (fun n c => 10 * n + (c.toNat - 48)) 0) else none

/-- Python `int(n)`: optional sign, then digits; `none` is `ValueError`. -/
def pyInt? : Str → Option Int
  | '-' :: ds => (pyDigits? ds).map (fun n => -(n : Int))
  | '+' :: ds => (pyDigits? ds).map (fun n => (n : Int))
  | ds => (pyDigits? ds).map (fun n => (n : Int))

/-- Python list indexing `opt[i]`, including negative indices; `none` is
`IndexError`. -/
def pyIndex (opt : List Str) (i : Int) : Option Str :=
  if 0 ≤ i then opt[i.toNat]?
  else
    let j : Int := (opt.length : Int) + i
    if 0 ≤ j then opt[j.toNat]? else none

/-- The confirmation loop of `ask_for_word_fix` (interactive bit 1):
keep prompting until the (stripped, upper-cased) answer is `Y` or `N`;
a blank answer (or end of input) defaults to `Y`.  Returns the answer and
the remaining input. -/
def confirmLoop : List Str → Str × List Str
  | [] => (str "Y", [])
  | s :: rest =>
    let r0 := pyUpper (pyStrip s)
    let r := if r0 = [] then str "Y" else r0
    if r = str "Y" ∨ r = str "N" then (r, rest) else confirmLoop rest

/-- The choose loop of `ask_for_word_fix` (interactive bit 2): a blank
answer (or end of input) breaks out with no choice; a parsable index into
the candidate list selects that (non-empty) candidate; anything else
(`ValueError`/`IndexError`) re-prompts. -/
def chooseLoop (opt : List Str) : List Str → Option Str × List Str
  | [] => (none, [])
  | s :: rest =>
    let n := pyStrip s
    if n = [] then (none, rest)
    else
      match pyInt? n with
      | some i =>
        match pyIndex opt i with
        | some r => if r = [] then chooseLoop opt rest else (some r, rest)
        | none => chooseLoop opt rest
      | none => chooseLoop opt rest

/-- The result of `ask_for_word_fix`: the (possibly mutated) entry, the
returned decision and display text, and the unconsumed standard input. -/
structure AskResult where
  entry : Missp
  fix : Bool
  fixword : Str
  rest : List Str
  deriving DecidableEq, Repr

/-- `ask_for_word_fix(line, match, misspelling, interactivity)`: with no
interactivity return the stored decision; with bit 1 and a stored
automatic fix, confirm (answer `N` turns the entry's fix off for the rest
of the run); otherwise with bit 2 and an empty reason, let the user choose
one of the stripped comma-separated candidates (a choice turns the
entry's fix on and replaces its data).  The returned decision and text
are re-read from the entry after any mutation. -/
def askForWordFix (wrongword : Str) (m : Missp) (interactivity : Nat)
    (inputs : List Str) : AskResult :=
  if interactivity = 0 then ⟨m, m.fix, fixCase wrongword m.data, inputs⟩
  else if m.fix = true ∧ interactivity &&& 1 ≠ 0 then
    let rr := confirmLoop inputs
    let m' := if rr.1 = str "N" then { m with fix := false } else m
    ⟨m', m'.fix, fixCase wrongword m'.data, rr.2⟩
  else if interactivity &&& 2 ≠ 0 ∧ m.reason = [] then
    let opt := (splitComma m.data).map pyStrip
    let rr := chooseLoop opt inputs
    let m' := match rr.1 with
      | some r => { m with data := r, fix := true }
      | none => m
    ⟨m', m'.fix, fixCase wrongword m'.data, rr.2⟩
  else ⟨m, m.fix, fixCase wrongword m.data, inputs⟩

/-! ### The per-file scanning loop of `parse_file`

Only the state the program keeps is modelled: the line buffer, the
misspelling table (mutable during the run), the remaining standard input,
the changed flag and the bad-word counter.  Output and the summary are
display-only.  `--ignore-regex` is disabled and the filename is not `-`. -/

/-- The option fields of the engine (`options.write_changes`,
`options.interactive`, `options.quiet_level`). -/
structure Opts where
  write_changes : Bool
  interactive : Nat
  quiet_level : Nat
  deriving DecidableEq, Repr

/-- `QuietLevels.DISABLED_FIXES`. -/
def QL_DISABLED_FIXES : Nat := 4

/-- `QuietLevels.NON_AUTOMATIC_FIXES`. -/
def QL_NON_AUTOMATIC_FIXES : Nat := 8

/-- The state carried through one line's match loop. -/
structure LineState where
  curLine : Str
  dict : Dict
  inputs : List Str
  fixedWords : List Str
  askedFor : List Str
  changed : Bool
  badCount : Nat
  deriving DecidableEq, Repr

/-- The tail of the match body of `parse_file`, after the fix decision is
resolved (`m` is the current dictionary entry, `fix`/`fixword` the
resolved decision and display text): skip words already fixed on this
line; apply the fix when write mode is on and the decision is positive;
otherwise apply the suppression rules (interactive choose-mode findings
with no reason, then the two quiet bits) and, if none applies, count the
finding. -/
def matchTail (o : Opts) (word : Str) (m : Missp) (fix : Bool) (fixword : Str)
    (st1 : LineState) : LineState :=
  if word ∈ st1.fixedWords then st1
  else if o.write_changes = true ∧ fix = true then
    { st1 with changed := true,
               curLine := subWordAll word fixword st1.curLine,
               fixedWords := word :: st1.fixedWords }
  else if o.interactive &&& 2 ≠ 0 ∧ fix = false ∧ m.reason = [] then st1
  else if m.reason ≠ [] then
    if o.quiet_level &&& QL_DISABLED_FIXES ≠ 0 then st1
    else { st1 with badCount := st1.badCount + 1 }
  else
    if o.quiet_level &&& QL_NON_AUTOMATIC_FIXES ≠ 0 then st1
    else { st1 with badCount := st1.badCount + 1 }

/-- The body of `for match in check_matches` in `parse_file`: look the
lower-cased word up; possibly ask interactively (once per lower-cased
word per line, recording the mutated entry); then run the tail on the
resolved decision. -/
def processMatch (o : Opts) (st : LineState) (word : Str) : LineState :=
  let lword := pyLower word
  match dictFind st.dict lword with
  | none => st
  | some m0 =>
    if o.interactive ≠ 0 ∧ lword ∉ st.askedFor then
      let a := askForWordFix word m0 o.interactive st.inputs
      matchTail o word a.entry a.fix a.fixword
        { st with dict := dictSet st.dict lword a.entry, inputs := a.rest,
                  askedFor := lword :: st.askedFor }
    else matchTail o word m0 m0.fix (fixCase word m0.data) st

/-- The state carried through one file. -/
structure FileState where
  lines : List Str
  dict : Dict
  inputs : List Str
  changed : Bool
  badCount : Nat
  deriving DecidableEq, Repr

/-- The match-list computation of `parse_file` for one line: when `*` is
in the URI ignore set, erase every URI/email match before tokenizing;
otherwise tokenize the full line and apply the one-for-one URI ignores. -/
def checkMatchesOf (uig : List Str) (line : Str) : List Str :=
  if str "*" ∈ uig then tokenize (uriSub line)
  else applyUriIgnoreWords (tokenize line) line uig

/-- One iteration of `for i, line in enumerate(lines)`: skip excluded
lines; otherwise compute the match list and fold the match body over it,
storing the (possibly fixed) line back. -/
def processLine (o : Opts) (uig : List Str) (excl : List Str)
    (st : FileState) (i : Nat) : FileState :=
  match st.lines[i]? with
  | none => st
  | some line =>
    if line ∈ excl then st
    else
      let cms := checkMatchesOf uig line
      let ls := cms.foldl (processMatch o)
        ⟨line, st.dict, st.inputs, [], [], st.changed, st.badCount⟩
      ⟨st.lines.set i ls.curLine, ls.dict, ls.inputs, ls.changed, ls.badCount⟩

/-- The whole scanning loop of `parse_file` over a decoded line buffer. -/
def processFile (o : Opts) (uig : List Str) (excl : List Str)
    (d : Dict) (inputs : List Str) (lines : List Str) : FileState :=
  (List.range lines.length).foldl (processLine o uig excl)
    ⟨lines, d, inputs, false, 0⟩

/-- The end-of-file write-back of `parse_file`: the buffer is flushed to
disk only when some line changed; otherwise the file is never opened for
writing and its content stays as read. -/
def finalDisk (orig : List Str) (res : FileState) : List Str :=
  if res.changed = true then res.lines else orig

/-! ### Supporting lemmas -/

theorem takeWhile_len_le (p : Char → Bool) (l : Str) : (l.takeWhile p).length ≤ l.length := by
  induction l with
  | nil => simp
  | cons c rest ih =>
    rw [List.takeWhile_cons]
    split
    · simpa using ih
    · simp

theorem leadsWith_length : ∀ {p r : Str}, leadsWith p r = true → p.length ≤ r.length := by
  intro p
  induction p with
  | nil => simp
  | cons a ps ih =>
    intro r h
    cases r with
    | nil => simp [leadsWith] at h
    | cons c cs =>
      simp only [leadsWith, Bool.and_eq_true] at h
      have := ih h.2
      simp only [List.length_cons]
      omega

theorem set_self {α : Type _} : ∀ (l : List α) (i : Nat) (x : α), l[i]? = some x → l.set i x = l
  | [], _, _ => by simp
  | a :: t, 0, x => by
    intro h
    simp at h
    simp [h]
  | a :: t, i + 1, x => by
    intro h
    simp only [List.getElem?_cons_succ] at h
    simp [List.set, set_self t i x h]

theorem lastIdxOf_none {c : Char} : ∀ {l : Str}, lastIdxOf c l = none ↔ c ∉ l := by
  intro l
  induction l with
  | nil => simp [lastIdxOf]
  | cons x xs ih =>
    simp only [lastIdxOf]
    cases e : lastIdxOf c xs with
    | some k =>
      have hmem : c ∈ xs := by
        by_contra hc
        rw [ih.mpr hc] at e
        cases e
      simp [hmem]
    | none =>
      have hnm : c ∉ xs := ih.mp e
      by_cases hx : x = c
      · subst hx
        simp
      · have hcx : c ≠ x := fun hh => hx hh.symm
        simp [hx, hcx, hnm]

theorem lastIdxOf_spec {c : Char} :
    ∀ {l : Str} {k : Nat}, lastIdxOf c l = some k →
      l[k]? = some c ∧ ∀ j, k < j → l[j]? ≠ some c := by
  intro l
  induction l with
  | nil => simp [lastIdxOf]
  | cons x xs ih =>
    intro k h
    rw [lastIdxOf] at h
    cases e : lastIdxOf c xs with
    | some m =>
      rw [e] at h
      cases h
      obtain ⟨h1, h2⟩ := ih e
      refine ⟨by simpa using h1, ?_⟩
      intro j hj
      cases j with
      | zero => omega
      | succ j' =>
        simp only [List.getElem?_cons_succ]
        exact h2 j' (by omega)
    | none =>
      rw [e] at h
      have hnm : c ∉ xs := lastIdxOf_none.mp e
      by_cases hx : x = c
      · rw [if_pos hx] at h
        cases h
        refine ⟨by simp [hx], ?_⟩
        intro j hj
        cases j with
        | zero => omega
        | succ j' =>
          simp only [List.getElem?_cons_succ]
          intro hc
          exact hnm (List.getElem?_mem hc)
      · rw [if_neg hx] at h
        cases h

theorem lastIdxOf_intro {c : Char} {l : Str} {k : Nat} (h1 : l[k]? = some c)
    (h2 : ∀ j, k < j → l[j]? ≠ some c) : lastIdxOf c l = some k := by
  cases e : lastIdxOf c l with
  | none =>
    exact absurd (List.getElem?_mem h1) (lastIdxOf_none.mp e)
  | some m =>
    obtain ⟨g1, g2⟩ := lastIdxOf_spec e
    rcases Nat.lt_trichotomy k m with hlt | heq | hgt
    · exact absurd g1 (h2 m hlt)
    · rw [heq]
    · exact absurd h1 (g2 k hgt)

theorem splitArrowGo_len_pos : ∀ (l acc : Str), 1 ≤ (splitArrowGo l acc).length
  | [], _ => by simp [splitArrowGo]
  | [c], _ => by simp [splitArrowGo]
  | c1 :: c2 :: rest, acc => by
    rw [splitArrowGo]
    split
    · simp
    · exact splitArrowGo_len_pos (c2 :: rest) (c1 :: acc)

/-- Rejoining the parts of `splitArrow` with the separator: the
left inverse that grounds the meaning of the split. -/
def joinArrow : List Str → Str
  | [] => []
  | [x] => x
  | x :: xs => x ++ '-' :: '>' :: joinArrow xs

theorem joinArrow_cons {x : Str} {xs : List Str} (h : xs ≠ []) :
    joinArrow (x :: xs) = x ++ '-' :: '>' :: joinArrow xs := by
  cases xs with
  | nil => exact absurd rfl h
  | cons y ys => rfl

theorem splitArrowGo_ne_nil (l acc : Str) : splitArrowGo l acc ≠ [] := by
  intro h
  have := splitArrowGo_len_pos l acc
  rw [h] at this
  simp at this

theorem joinArrow_splitArrowGo : ∀ (l acc : Str), joinArrow (splitArrowGo l acc) = acc.reverse ++ l
  | [], acc => by simp [splitArrowGo, joinArrow]
  | [c], acc => by simp [splitArrowGo, joinArrow]
  | c1 :: c2 :: rest, acc => by
    rw [splitArrowGo]
    split
    · next hc =>
      obtain ⟨h1, h2⟩ := hc
      subst h1
      subst h2
      rw [joinArrow_cons (splitArrowGo_ne_nil rest [])]
      rw [joinArrow_splitArrowGo rest []]
      simp
    · rw [joinArrow_splitArrowGo (c2 :: rest) (c1 :: acc)]
      simp

theorem splitArrowGo_two_le :
    ∀ (l acc a b : Str), l = a ++ '-' :: '>' :: b → 2 ≤ (splitArrowGo l acc).length
  | [], _, a, b => by
    intro h
    have := congrArg List.length h
    simp at this
    omega
  | [c], _, a, b => by
    intro h
    have := congrArg List.length h
    simp at this
    omega
  | c1 :: c2 :: rest, acc, a, b => by
    intro h
    rw [splitArrowGo]
    split
    · simp only [List.length_cons]
      have := splitArrowGo_len_pos rest []
      omega
    · next hc =>
      cases a with
      | nil =>
        simp at h
        exact absurd ⟨h.1, h.2.1⟩ hc
      | cons x xs =>
        simp only [List.cons_append, List.cons.injEq] at h
        exact splitArrowGo_two_le (c2 :: rest) (c1 :: acc) xs b h.2

/-- C4: for every dictionary source line `wrong->data` the produced entry
follows the last-comma rule on the lower-cased, stripped data: no comma
gives an automatic fix with empty reason; a final comma gives a
non-automatic fix with empty reason and the trailing comma stripped; any
other last comma gives a non-automatic fix with the text after the comma
(stripped) as reason. -/
theorem dict_entry_shape :
    (∀ (ignore : List Str) (d : Dict) (line key0 data0 : Str),
        splitArrow line = [key0, data0] → pyLower key0 ∉ ignore →
        buildDictLine ignore d line
          = some (dictInsert d (pyLower key0) (parseData (pyLower data0))))
    ∧ (∀ (data0 D : Str), D = pyStrip data0 →
        ((',' ∉ D → parseData data0 = ⟨D, true, []⟩)
         ∧ (D.getLast? = some ',' → parseData data0 = ⟨D.dropLast, false, []⟩)
         ∧ (∀ j : Nat, D[j]? = some ',' → (∀ i, j < i → D[i]? ≠ some ',') →
             j ≠ D.length - 1 →
             parseData data0 = ⟨D.take j, false, pyStrip (D.drop (j + 1))⟩))) := by
  constructor
  · intro ignore d line key0 data0 hsplit hig
    rw [buildDictLine, hsplit]
    simp [if_neg hig]
  · intro data0 D hD
    refine ⟨?_, ?_, ?_⟩
    · intro hc
      rw [parseData, ← hD]
      rw [lastIdxOf_none.mpr hc]
    · intro hlast
      have hD0 : D ≠ [] := by
        intro h
        rw [h] at hlast
        simp at hlast
      have h1 : D[D.length - 1]? = some ',' := by
        rw [← List.getLast?_eq_getElem?]
        exact hlast
      have h2 : ∀ j, D.length - 1 < j → D[j]? ≠ some ',' := by
        intro j hj
        have : D.length ≤ j := by
          have : 0 < D.length := List.length_pos.mpr hD0
          omega
        rw [List.getElem?_eq_none this]
        simp
      rw [parseData, ← hD, lastIdxOf_intro h1 h2]
      simp [List.dropLast_eq_take]
    · intro j h1 h2 hne
      rw [parseData, ← hD, lastIdxOf_intro h1 h2]
      simp [if_neg hne]

theorem dict_entry_shape_witness :
    splitArrow (str "teh->the, thee, rare word") = [str "teh", str "the, thee, rare word"]
    ∧ pyLower (str "teh") ∉ ([] : List Str)
    ∧ buildDictLine [] [] (str "teh->the, thee, rare word")
        = some (dictInsert [] (pyLower (str "teh"))
            (parseData (pyLower (str "the, thee, rare word")))) :=
  ⟨by decide, by decide,
    dict_entry_shape.1 [] [] (str "teh->the, thee, rare word")
      (str "teh") (str "the, thee, rare word") (by decide) (by decide)⟩

/-- C5 counterexample: the line `a->b->c` contains the separator `->`
(witnessed by the explicit decomposition) and yet `build_dict` fails on
it, because `line.split("->")` yields three parts and the destructuring
assignment `[key, data] = ...` raises. -/
theorem dict_split_arrow_cex :
    str "a->b->c" = str "a" ++ '-' :: '>' :: str "b->c"
    ∧ buildDictLine [] [] (str "a->b->c") = none
    ∧ (splitArrow (str "a->b->c")).length = 3 := by
  refine ⟨by decide, by decide, by decide⟩

/-- C5 (amended): dictionary loading fails on a line exactly when
splitting it on `->` does not yield exactly two parts, i.e. when the line
does not contain exactly one occurrence of the separator; every line with
exactly one `->` yields a key/data pair.  The parts always rejoin to the
original line, and any line containing the separator splits into at least
two parts. -/
theorem dict_split_arrow (ignore : List Str) (d : Dict) (line : Str) :
    (buildDictLine ignore d line = none ↔ (splitArrow line).length ≠ 2)
    ∧ joinArrow (splitArrow line) = line
    ∧ (∀ a b : Str, line = a ++ '-' :: '>' :: b → 2 ≤ (splitArrow line).length) := by
  refine ⟨?_, ?_, ?_⟩
  · rw [buildDictLine.eq_def]
    cases e : splitArrow line with
    | nil => simp
    | cons p1 t1 =>
      cases t1 with
      | nil => simp
      | cons p2 t2 =>
        cases t2 with
        | nil =>
          constructor
          · intro h
            exact absurd h (by
              show (if pyLower p1 ∈ ignore then some d
                    else some (dictInsert d (pyLower p1) (parseData (pyLower p2)))) ≠ none
              split <;> simp)
          · intro h
            simp at h
        | cons p3 t3 =>
          constructor
          · intro _
            simp only [List.length_cons]
            omega
          · intro _
            rfl
  · exact joinArrow_splitArrowGo line []
  · intro a b h
    exact splitArrowGo_two_le line [] a b h

theorem dict_split_arrow_witness :
    2 ≤ (splitArrow (str "a->b")).length :=
  (dict_split_arrow [] [] (str "a->b")).2.2 (str "a") (str "b") (by decide)

/-- C10: `fix_case` tests the capitalized shape first, so a word that is
both its own capitalization and its own upper-casing (such as `A`) gets
the per-candidate capitalized rendering joined with `", "`; only that
branch strips candidates and normalizes the separator, while the
uppercase branch maps `str.upper` over the stored string (preserving
every comma and space position) and the fall-through branch returns the
stored string unchanged. -/
theorem fix_case_branch_order :
    (∀ w f : Str, w = pyCapitalize w →
        fixCase w f = List.intercalate [',', ' ']
          ((splitComma f).map (fun x => pyCapitalize (pyStrip x))))
    ∧ (∀ w f : Str, w ≠ pyCapitalize w → w = pyUpper w →
        fixCase w f = pyUpper f
        ∧ (pyUpper f).length = f.length
        ∧ (∀ i : Nat, f[i]? = some ',' → (pyUpper f)[i]? = some ',')
        ∧ (∀ i : Nat, f[i]? = some ' ' → (pyUpper f)[i]? = some ' '))
    ∧ (∀ w f : Str, w ≠ pyCapitalize w → w ≠ pyUpper w → fixCase w f = f)
    ∧ (str "A" = pyCapitalize (str "A") ∧ str "A" = pyUpper (str "A")
       ∧ fixCase (str "A") (str "ab ,cd") = str "Ab, Cd"
       ∧ pyUpper (str "ab ,cd") = str "AB ,CD"
       ∧ str "Ab, Cd" ≠ str "AB ,CD") := by
  refine ⟨?_, ?_, ?_, by decide⟩
  · intro w f h
    rw [fixCase, if_pos h]
  · intro w f h1 h2
    rw [fixCase, if_neg h1, if_pos h2]
    refine ⟨rfl, by simp [pyUpper], ?_, ?_⟩
    · intro i hi
      rw [pyUpper, List.getElem?_map, hi]
      rfl
    · intro i hi
      rw [pyUpper, List.getElem?_map, hi]
      rfl

  · intro w f h1 h2
    rw [fixCase, if_neg h1, if_neg h2]

theorem fix_case_branch_order_witness :
    str "A" = pyCapitalize (str "A")
    ∧ fixCase (str "A") (str "ab ,cd")
        = List.intercalate [',', ' ']
            ((splitComma (str "ab ,cd")).map (fun x => pyCapitalize (pyStrip x))) :=
  ⟨by decide, fix_case_branch_order.1 (str "A") (str "ab ,cd") (by decide)⟩

/-! ### The reason/autofix invariant (C9) -/

/-- The invariant of the data model: a non-empty reason disables the
automatic fix. -/
def MisspInv (m : Missp) : Prop := m.reason ≠ [] → m.fix = false

theorem parseData_inv (data0 : Str) : MisspInv (parseData data0) := by
  unfold MisspInv
  rw [parseData]
  split
  · simp
  · split <;> simp

theorem mem_dictInsert {d : Dict} {k : Str} {v : Missp} {p : Str × Missp}
    (hp : p ∈ dictInsert d k v) : p = (k, v) ∨ p ∈ d := by
  rw [dictInsert] at hp
  split at hp
  · rw [dictSet] at hp
    obtain ⟨q, hq, hqe⟩ := List.mem_map.mp hp
    split at hqe
    · left; exact hqe.symm
    · right; rw [← hqe]; exact hq
  · rcases List.mem_append.mp hp with h | h
    · right; exact h
    · left; simpa using h

theorem buildDictLine_inv {ignore : List Str} {d : Dict} {line : Str} {d' : Dict}
    (h : buildDictLine ignore d line = some d')
    (hd : ∀ p ∈ d, MisspInv p.2) : ∀ p ∈ d', MisspInv p.2 := by
  rw [buildDictLine.eq_def] at h
  revert h
  cases e : splitArrow line with
  | nil => intro h; cases h
  | cons p1 t1 =>
    cases t1 with
    | nil => intro h; cases h
    | cons p2 t2 =>
      cases t2 with
      | nil =>
        intro h
        have h' : (if pyLower p1 ∈ ignore then some d
            else some (dictInsert d (pyLower p1) (parseData (pyLower p2)))) = some d' := h
        by_cases hig : pyLower p1 ∈ ignore
        · rw [if_pos hig] at h'
          cases h'
          exact hd
        · rw [if_neg hig] at h'
          cases h'
          intro p hp
          rcases mem_dictInsert hp with h | h
          · rw [h]; exact parseData_inv _
          · exact hd p h
      | cons p3 t3 => intro h; cases h

/-- C9: both `build_dict` and `ask_for_word_fix` preserve the invariant
that an entry with a non-empty reason has its automatic fix disabled, so
it holds for every entry at every point of a run. -/
theorem reason_disables_autofix :
    (∀ (ignore : List Str) (d : Dict) (lines : List Str) (d' : Dict),
        buildDict ignore d lines = some d' →
        (∀ p ∈ d, MisspInv p.2) → ∀ p ∈ d', MisspInv p.2)
    ∧ (∀ (w : Str) (m : Missp) (inter : Nat) (inputs : List Str),
        MisspInv m → MisspInv (askForWordFix w m inter inputs).entry) := by
  constructor
  · intro ignore d lines
    induction lines generalizing d with
    | nil =>
      intro d' h hd
      rw [buildDict] at h
      cases h
      exact hd
    | cons line rest ih =>
      intro d' h hd
      rw [buildDict] at h
      revert h
      cases e : buildDictLine ignore d line with
      | none => intro h; cases h
      | some d1 =>
        intro h
        exact ih d1 d' h (buildDictLine_inv e hd)
  · intro w m inter inputs hm
    rw [askForWordFix]
    split
    · exact hm
    · split
      · show MisspInv (if (confirmLoop inputs).1 = str "N" then { m with fix := false } else m)
        split
        · intro _; rfl
        · exact hm
      · split
        · next hg =>
          show MisspInv
            (match (chooseLoop ((splitComma m.data).map pyStrip) inputs).1 with
              | some r => { m with data := r, fix := true }
              | none => m)
          cases (chooseLoop ((splitComma m.data).map pyStrip) inputs).1 with
          | none => exact hm
          | some r =>
            intro hcontr
            exact absurd hg.2 hcontr
        · exact hm

theorem reason_disables_autofix_witness :
    MisspInv (⟨str "the", false, str "needs care"⟩ : Missp)
    ∧ MisspInv (askForWordFix (str "teh") ⟨str "the", false, str "needs care"⟩ 3 []).entry :=
  ⟨fun _ => rfl,
    reason_disables_autofix.2 (str "teh") ⟨str "the", false, str "needs care"⟩ 3 []
      (fun _ => rfl)⟩

/-! ### Interactive choose mode (C7) -/

/-- C7 counterexample: with interactivity 2 and an entry whose correction
holds a single candidate (`the`, no comma) and whose reason is empty, the
choose branch still prompts — it consumes an input line and a numeric
answer mutates the entry — whereas the claim says the prompt only applies
when more than one candidate exists (in which case a blank-free run would
leave the stored decision `false` untouched). -/
theorem choose_single_candidate_cex :
    (splitComma (str "the")).length = 1
    ∧ (⟨str "the", false, []⟩ : Missp).fix = false
    ∧ (⟨str "the", false, []⟩ : Missp).reason = []
    ∧ (askForWordFix (str "teh") ⟨str "the", false, []⟩ 2 [str "0"]).fix = true
    ∧ (askForWordFix (str "teh") ⟨str "the", false, []⟩ 2 [str "0"]).rest = [] := by
  decide

theorem chooseLoop_blank {opt : List Str} {s : Str} {inputs : List Str}
    (hs : pyStrip s = []) : chooseLoop opt (s :: inputs) = (none, inputs) := by
  rw [chooseLoop, hs]
  simp

theorem chooseLoop_pick {opt : List Str} {s : Str} {inputs : List Str} {i : Int} {r : Str}
    (hi : pyInt? (pyStrip s) = some i) (hr : pyIndex opt i = some r) (hne : r ≠ []) :
    chooseLoop opt (s :: inputs) = (some r, inputs) := by
  have hs : pyStrip s ≠ [] := by
    intro h
    rw [h] at hi
    simp [pyInt?, pyDigits?] at hi
  rw [chooseLoop]
  simp only [hi, hr, if_neg hs]
  simp [hne]

theorem chooseLoop_skip {opt : List Str} {s : Str} {inputs : List Str}
    (hs : pyStrip s ≠ [])
    (h : pyInt? (pyStrip s) = none ∨
      ∃ i, pyInt? (pyStrip s) = some i ∧ pyIndex opt i = none) :
    chooseLoop opt (s :: inputs) = chooseLoop opt inputs := by
  rw [chooseLoop]
  rcases h with h | ⟨i, hi, hr⟩
  · simp [if_neg hs, h]
  · simp [if_neg hs, hi, hr]

/-- C7 (amended): the choose branch applies whenever interactivity bit 2
is set, the entry's reason is empty and the confirm branch was not taken
— regardless of how many comma-separated candidates exist.  Within it:
blank input declines and leaves the decision as stored; a valid numeric
index sets the entry's fix to true and its correction to the chosen
(stripped) candidate; an invalid index merely re-prompts on the remaining
input and is never fatal. -/
theorem choose_mode_behaviour :
    ∀ (w : Str) (m : Missp) (inter : Nat) (s : Str) (inputs : List Str),
      inter ≠ 0 → ¬(m.fix = true ∧ inter &&& 1 ≠ 0) → inter &&& 2 ≠ 0 ∧ m.reason = [] →
      ((pyStrip s = [] →
          askForWordFix w m inter (s :: inputs) = ⟨m, m.fix, fixCase w m.data, inputs⟩)
       ∧ (∀ (i : Nat) (r : Str),
            pyInt? (pyStrip s) = some (i : Int) →
            ((splitComma m.data).map pyStrip)[i]? = some r → r ≠ [] →
            askForWordFix w m inter (s :: inputs)
              = ⟨{ m with data := r, fix := true }, true, fixCase w r, inputs⟩)
       ∧ (pyStrip s ≠ [] →
          (pyInt? (pyStrip s) = none ∨
            ∃ i, pyInt? (pyStrip s) = some i ∧
              pyIndex ((splitComma m.data).map pyStrip) i = none) →
          askForWordFix w m inter (s :: inputs) = askForWordFix w m inter inputs)) := by
  intro w m inter s inputs h0 h1 h2
  have hask : ∀ ins, askForWordFix w m inter ins
      = (let opt := (splitComma m.data).map pyStrip
         let rr := chooseLoop opt ins
         let m' := match rr.1 with
           | some r => { m with data := r, fix := true }
           | none => m
         ⟨m', m'.fix, fixCase w m'.data, rr.2⟩) := by
    intro ins
    rw [askForWordFix, if_neg h0, if_neg h1, if_pos h2]
  refine ⟨?_, ?_, ?_⟩
  · intro hs
    rw [hask]
    show (let rr := chooseLoop ((splitComma m.data).map pyStrip) (s :: inputs)
          let m' := match rr.1 with
            | some r => { m with data := r, fix := true }
            | none => m
          (⟨m', m'.fix, fixCase w m'.data, rr.2⟩ : AskResult)) = _
    rw [chooseLoop_blank hs]
  · intro i r hi hr hne
    rw [hask]
    have hr' : pyIndex ((splitComma m.data).map pyStrip) (i : Int) = some r := by
      rw [pyIndex, if_pos (by omega : (0 : Int) ≤ (i : Int))]
      simpa using hr
    show (let rr := chooseLoop ((splitComma m.data).map pyStrip) (s :: inputs)
          let m' := match rr.1 with
            | some r => { m with data := r, fix := true }
            | none => m
          (⟨m', m'.fix, fixCase w m'.data, rr.2⟩ : AskResult)) = _
    rw [chooseLoop_pick hi hr' hne]
  · intro hs hinv
    rw [hask, hask]
    show (let rr := chooseLoop ((splitComma m.data).map pyStrip) (s :: inputs)
          let m' := match rr.1 with
            | some r => { m with data := r, fix := true }
            | none => m
          (⟨m', m'.fix, fixCase w m'.data, rr.2⟩ : AskResult)) = _
    rw [chooseLoop_skip hs hinv]

theorem choose_mode_behaviour_witness :
    askForWordFix (str "teh") ⟨str "the, thee", false, []⟩ 2 [str "1"]
      = ⟨⟨str "thee", true, []⟩, true, fixCase (str "teh") (str "thee"), []⟩ :=
  (choose_mode_behaviour (str "teh") ⟨str "the, thee", false, []⟩ 2 (str "1") []
      (by decide) (by decide) ⟨by decide, by decide⟩).2.1 1 (str "thee")
    (by decide) (by decide) (by decide)

/-! ### Engine lemmas: the match body -/

theorem processMatch_none {o : Opts} {st : LineState} {w : Str}
    (hm : dictFind st.dict (pyLower w) = none) : processMatch o st w = st := by
  simp only [processMatch, hm]

theorem processMatch_noninteractive {o : Opts} {st : LineState} {w : Str} {m : Missp}
    (hi : o.interactive = 0) (hm : dictFind st.dict (pyLower w) = some m) :
    processMatch o st w = matchTail o w m m.fix (fixCase w m.data) st := by
  have hcond : ¬(o.interactive ≠ 0 ∧ pyLower w ∉ st.askedFor) := by simp [hi]
  simp only [processMatch, hm, if_neg hcond]

theorem processMatch_asked {o : Opts} {st : LineState} {w : Str} {m : Missp}
    (hm : dictFind st.dict (pyLower w) = some m) (ha : pyLower w ∈ st.askedFor) :
    processMatch o st w = matchTail o w m m.fix (fixCase w m.data) st := by
  have hcond : ¬(o.interactive ≠ 0 ∧ pyLower w ∉ st.askedFor) := by simp [ha]
  simp only [processMatch, hm, if_neg hcond]

theorem processMatch_ask {o : Opts} {st : LineState} {w : Str} {m : Missp}
    (hm : dictFind st.dict (pyLower w) = some m)
    (hcond : o.interactive ≠ 0 ∧ pyLower w ∉ st.askedFor) :
    processMatch o st w =
      matchTail o w (askForWordFix w m o.interactive st.inputs).entry
        (askForWordFix w m o.interactive st.inputs).fix
        (askForWordFix w m o.interactive st.inputs).fixword
        { st with
            dict := dictSet st.dict (pyLower w) (askForWordFix w m o.interactive st.inputs).entry,
            inputs := (askForWordFix w m o.interactive st.inputs).rest,
            askedFor := pyLower w :: st.askedFor } := by
  simp only [processMatch, hm, if_pos hcond]

theorem matchTail_nofix {o : Opts} {fix : Bool} (h : ¬(o.write_changes = true ∧ fix = true))
    (w : Str) (m : Missp) (fw : Str) (st1 : LineState) :
    ∃ b, matchTail o w m fix fw st1 = { st1 with badCount := b } := by
  unfold matchTail
  rw [if_neg h]
  repeat' split
  all_goals exact ⟨_, rfl⟩

theorem matchTail_badCount (o : Opts) (w : Str) (m : Missp) (fix : Bool) (fw : Str)
    (st1 : LineState) :
    (matchTail o w m fix fw st1).badCount =
      st1.badCount +
        (if w ∉ st1.fixedWords ∧ ¬(o.write_changes = true ∧ fix = true) ∧
            ¬(o.interactive &&& 2 ≠ 0 ∧ fix = false ∧ m.reason = []) ∧
            (if m.reason ≠ [] then o.quiet_level &&& QL_DISABLED_FIXES = 0
             else o.quiet_level &&& QL_NON_AUTOMATIC_FIXES = 0)
         then 1 else 0) := by
  unfold matchTail
  by_cases h1 : w ∈ st1.fixedWords
  · simp [h1]
  · rw [if_neg h1]
    by_cases h2 : o.write_changes = true ∧ fix = true
    · rw [if_pos h2]
      simp [h1, h2]
    · rw [if_neg h2]
      by_cases h3 : o.interactive &&& 2 ≠ 0 ∧ fix = false ∧ m.reason = []
      · rw [if_pos h3]
        simp [h1, h2, h3]
      · rw [if_neg h3]
        by_cases h4 : m.reason ≠ []
        · rw [if_pos h4]
          by_cases h5 : o.quiet_level &&& QL_DISABLED_FIXES ≠ 0
          · rw [if_pos h5]
            simp [h1, h2, h3, h4, h5]
          · rw [if_neg h5]
            simp only [not_not] at h5
            simp [h1, h2, h3, h4, h5]
        · rw [if_neg h4]
          by_cases h5 : o.quiet_level &&& QL_NON_AUTOMATIC_FIXES ≠ 0
          · rw [if_pos h5]
            simp [h1, h2, h3, h4, h5]
          · rw [if_neg h5]
            simp only [not_not] at h5
            simp [h1, h2, h3, h4, h5]

theorem matchTail_badCount_le (o : Opts) (w : Str) (m : Missp) (fix : Bool) (fw : Str)
    (st1 : LineState) : st1.badCount ≤ (matchTail o w m fix fw st1).badCount := by
  rw [matchTail_badCount]
  split <;> omega

theorem matchTail_frame (o : Opts) (w : Str) (m : Missp) (fix : Bool) (fw : Str)
    (st1 : LineState) :
    (matchTail o w m fix fw st1).dict = st1.dict
    ∧ (matchTail o w m fix fw st1).inputs = st1.inputs
    ∧ (matchTail o w m fix fw st1).askedFor = st1.askedFor := by
  unfold matchTail
  repeat' split
  all_goals exact ⟨rfl, rfl, rfl⟩

theorem processMatch_badCount_le (o : Opts) (st : LineState) (w : Str) :
    st.badCount ≤ (processMatch o st w).badCount := by
  cases hm : dictFind st.dict (pyLower w) with
  | none => rw [processMatch_none hm]
  | some m =>
    by_cases hcond : o.interactive ≠ 0 ∧ pyLower w ∉ st.askedFor
    · rw [processMatch_ask hm hcond]
      exact matchTail_badCount_le o w (askForWordFix w m o.interactive st.inputs).entry
        (askForWordFix w m o.interactive st.inputs).fix
        (askForWordFix w m o.interactive st.inputs).fixword
        { st with
            dict := dictSet st.dict (pyLower w) (askForWordFix w m o.interactive st.inputs).entry,
            inputs := (askForWordFix w m o.interactive st.inputs).rest,
            askedFor := pyLower w :: st.askedFor }
    · have h : processMatch o st w = matchTail o w m m.fix (fixCase w m.data) st := by
        simp only [processMatch, hm, if_neg hcond]
      rw [h]
      exact matchTail_badCount_le o w m m.fix (fixCase w m.data) st

theorem processMatch_nowrite {o : Opts} (hw : o.write_changes = false)
    (st : LineState) (w : Str) :
    (processMatch o st w).curLine = st.curLine
    ∧ (processMatch o st w).changed = st.changed := by
  have hnf : ∀ fix : Bool, ¬(o.write_changes = true ∧ fix = true) := by simp [hw]
  cases hm : dictFind st.dict (pyLower w) with
  | none => rw [processMatch_none hm]; exact ⟨rfl, rfl⟩
  | some m =>
    by_cases hcond : o.interactive ≠ 0 ∧ pyLower w ∉ st.askedFor
    · rw [processMatch_ask hm hcond]
      obtain ⟨b, hb⟩ := matchTail_nofix (hnf _) w
        (askForWordFix w m o.interactive st.inputs).entry
        (askForWordFix w m o.interactive st.inputs).fixword
        { st with
            dict := dictSet st.dict (pyLower w) (askForWordFix w m o.interactive st.inputs).entry,
            inputs := (askForWordFix w m o.interactive st.inputs).rest,
            askedFor := pyLower w :: st.askedFor }
      rw [hb]
      exact ⟨rfl, rfl⟩
    · have h : processMatch o st w = matchTail o w m m.fix (fixCase w m.data) st := by
        simp only [processMatch, hm, if_neg hcond]
      rw [h]
      obtain ⟨b, hb⟩ := matchTail_nofix (hnf _) w m (fixCase w m.data) st
      rw [hb]
      exact ⟨rfl, rfl⟩

theorem processMatch_stored {o : Opts} {st : LineState} {w : Str} {m : Missp}
    (hm : dictFind st.dict (pyLower w) = some m)
    (hcond : ¬(o.interactive ≠ 0 ∧ pyLower w ∉ st.askedFor)) :
    processMatch o st w = matchTail o w m m.fix (fixCase w m.data) st := by
  simp only [processMatch, hm, if_neg hcond]

theorem processMatch_nofix_word {o : Opts} (hi : o.interactive = 0) {st : LineState}
    (w : Str) (hwf : ∀ m, dictFind st.dict (pyLower w) = some m → m.fix = false) :
    ∃ b, processMatch o st w = { st with badCount := b } := by
  cases hm : dictFind st.dict (pyLower w) with
  | none => rw [processMatch_none hm]; exact ⟨st.badCount, rfl⟩
  | some m =>
    rw [processMatch_noninteractive hi hm]
    have hnofix : ¬(o.write_changes = true ∧ m.fix = true) := by simp [hwf m hm]
    exact matchTail_nofix hnofix w m (fixCase w m.data) st

/-! ### Engine lemmas: per-line and per-file folds -/

theorem foldl_nowrite {o : Opts} (hw : o.write_changes = false) :
    ∀ (cms : List Str) (ls : LineState),
      (cms.foldl (processMatch o) ls).curLine = ls.curLine
      ∧ (cms.foldl (processMatch o) ls).changed = ls.changed
  | [], _ => ⟨rfl, rfl⟩
  | w :: cms, ls => by
    simp only [List.foldl_cons]
    obtain ⟨h1, h2⟩ := foldl_nowrite hw cms (processMatch o ls w)
    obtain ⟨g1, g2⟩ := processMatch_nowrite hw ls w
    exact ⟨h1.trans g1, h2.trans g2⟩

theorem foldl_nofix_word {o : Opts} (hi : o.interactive = 0) :
    ∀ (cms : List Str) (ls : LineState),
      (∀ w ∈ cms, ∀ m, dictFind ls.dict (pyLower w) = some m → m.fix = false) →
      ∃ b, cms.foldl (processMatch o) ls = { ls with badCount := b }
  | [], ls, _ => ⟨ls.badCount, rfl⟩
  | w :: cms, ls, h => by
    simp only [List.foldl_cons]
    obtain ⟨b1, hb1⟩ := processMatch_nofix_word hi w (h w (List.mem_cons_self w cms))
    rw [hb1]
    obtain ⟨b2, hb2⟩ := foldl_nofix_word hi cms { ls with badCount := b1 }
      (fun w2 hw2 m hm => h w2 (List.mem_cons_of_mem w hw2) m hm)
    rw [hb2]
    exact ⟨b2, rfl⟩

theorem foldl_badCount_le (o : Opts) :
    ∀ (cms : List Str) (ls : LineState), ls.badCount ≤ (cms.foldl (processMatch o) ls).badCount
  | [], _ => Nat.le_refl _
  | w :: cms, ls => by
    simp only [List.foldl_cons]
    exact Nat.le_trans (processMatch_badCount_le o ls w)
      (foldl_badCount_le o cms (processMatch o ls w))

theorem processLine_none {o : Opts} {uig excl : List Str} {st : FileState} {i : Nat}
    (e : st.lines[i]? = none) : processLine o uig excl st i = st := by
  simp only [processLine, e]

theorem processLine_skip {o : Opts} {uig excl : List Str} {st : FileState} {i : Nat}
    {line : Str} (e : st.lines[i]? = some line) (hexc : line ∈ excl) :
    processLine o uig excl st i = st := by
  simp only [processLine, e, if_pos hexc]

theorem processLine_some {o : Opts} {uig excl : List Str} {st : FileState} {i : Nat}
    {line : Str} (e : st.lines[i]? = some line) (hexc : line ∉ excl) :
    processLine o uig excl st i =
      ⟨st.lines.set i
        ((checkMatchesOf uig line).foldl (processMatch o)
          ⟨line, st.dict, st.inputs, [], [], st.changed, st.badCount⟩).curLine,
       ((checkMatchesOf uig line).foldl (processMatch o)
          ⟨line, st.dict, st.inputs, [], [], st.changed, st.badCount⟩).dict,
       ((checkMatchesOf uig line).foldl (processMatch o)
          ⟨line, st.dict, st.inputs, [], [], st.changed, st.badCount⟩).inputs,
       ((checkMatchesOf uig line).foldl (processMatch o)
          ⟨line, st.dict, st.inputs, [], [], st.changed, st.badCount⟩).changed,
       ((checkMatchesOf uig line).foldl (processMatch o)
          ⟨line, st.dict, st.inputs, [], [], st.changed, st.badCount⟩).badCount⟩ := by
  simp only [processLine, e, if_neg hexc]

theorem processLine_nowrite {o : Opts} {uig excl : List Str} (hw : o.write_changes = false)
    (st : FileState) (i : Nat) :
    (processLine o uig excl st i).lines = st.lines
    ∧ (processLine o uig excl st i).changed = st.changed := by
  cases e : st.lines[i]? with
  | none => rw [processLine_none e]; exact ⟨rfl, rfl⟩
  | some line =>
    by_cases hexc : line ∈ excl
    · rw [processLine_skip e hexc]; exact ⟨rfl, rfl⟩
    · rw [processLine_some e hexc]
      obtain ⟨h1, h2⟩ := foldl_nowrite hw (checkMatchesOf uig line)
        ⟨line, st.dict, st.inputs, [], [], st.changed, st.badCount⟩
      refine ⟨?_, h2⟩
      show st.lines.set i
        ((checkMatchesOf uig line).foldl (processMatch o)
          ⟨line, st.dict, st.inputs, [], [], st.changed, st.badCount⟩).curLine = st.lines
      rw [h1]
      exact set_self st.lines i line e

theorem processLine_nofix_word {o : Opts} (uig excl : List Str) (hi : o.interactive = 0)
    (st : FileState) (i : Nat)
    (hwf : ∀ line, st.lines[i]? = some line → ∀ w ∈ checkMatchesOf uig line,
      ∀ m, dictFind st.dict (pyLower w) = some m → m.fix = false) :
    ∃ b, processLine o uig excl st i = { st with badCount := b } := by
  cases e : st.lines[i]? with
  | none => rw [processLine_none e]; exact ⟨st.badCount, rfl⟩
  | some line =>
    by_cases hexc : line ∈ excl
    · rw [processLine_skip e hexc]; exact ⟨st.badCount, rfl⟩
    · rw [processLine_some e hexc]
      obtain ⟨b, hb⟩ := foldl_nofix_word hi (checkMatchesOf uig line)
        ⟨line, st.dict, st.inputs, [], [], st.changed, st.badCount⟩ (hwf line e)
      rw [hb]
      refine ⟨b, ?_⟩
      show (⟨st.lines.set i line, st.dict, st.inputs, st.changed, b⟩ : FileState)
        = { st with badCount := b }
      rw [set_self st.lines i line e]

theorem processLine_badCount_le (o : Opts) (uig excl : List Str) (st : FileState) (i : Nat) :
    st.badCount ≤ (processLine o uig excl st i).badCount := by
  cases e : st.lines[i]? with
  | none => rw [processLine_none e]
  | some line =>
    by_cases hexc : line ∈ excl
    · rw [processLine_skip e hexc]
    · rw [processLine_some e hexc]
      exact foldl_badCount_le o (checkMatchesOf uig line)
        ⟨line, st.dict, st.inputs, [], [], st.changed, st.badCount⟩

theorem foldl_lines_nowrite {o : Opts} {uig excl : List Str} (hw : o.write_changes = false) :
    ∀ (idxs : List Nat) (st : FileState),
      (idxs.foldl (processLine o uig excl) st).lines = st.lines
      ∧ (idxs.foldl (processLine o uig excl) st).changed = st.changed
  | [], _ => ⟨rfl, rfl⟩
  | i :: idxs, st => by
    simp only [List.foldl_cons]
    obtain ⟨h1, h2⟩ := foldl_lines_nowrite hw idxs (processLine o uig excl st i)
    obtain ⟨g1, g2⟩ := processLine_nowrite hw st i
    exact ⟨h1.trans g1, h2.trans g2⟩

theorem foldl_lines_nofix_word {o : Opts} (uig excl : List Str) (hi : o.interactive = 0)
    {lines0 : List Str} {d : Dict}
    (hall : ∀ line ∈ lines0, ∀ w ∈ checkMatchesOf uig line,
      ∀ m, dictFind d (pyLower w) = some m → m.fix = false) :
    ∀ (idxs : List Nat) (st : FileState), st.lines = lines0 → st.dict = d →
      ∃ b, idxs.foldl (processLine o uig excl) st = { st with badCount := b }
  | [], st, _, _ => ⟨st.badCount, rfl⟩
  | i :: idxs, st, hl, hd => by
    simp only [List.foldl_cons]
    obtain ⟨b1, hb1⟩ := processLine_nofix_word uig excl hi st i
      (fun line e w hw m hm =>
        hall line (hl ▸ List.getElem?_mem e) w hw m (hd ▸ hm))
    rw [hb1]
    obtain ⟨b2, hb2⟩ := foldl_lines_nofix_word uig excl hi hall idxs
      { st with badCount := b1 } hl hd
    rw [hb2]
    exact ⟨b2, rfl⟩

/-! ### C8: no affirmative fix decision means the file is never rewritten

The changed flag of the engine state is the exact gate of the
end-of-file write-back, and it flips only at a match whose resolved
decision is an applied affirmative fix (write mode on, decision
positive, literal not already fixed on the line).  The lemmas below
characterise the flag, propagate a false flag backwards through the
folds, and establish the flag stays false in the three run shapes in
which no decision can resolve affirmatively: write mode off, a
non-interactive run in which no matched word has an automatic fix, and
an interactive (bit 1) run in which every confirmation is answered `N`
and the input holds an answer for every match. -/

theorem matchTail_changed_iff (o : Opts) (w : Str) (m : Missp) (fix : Bool) (fw : Str)
    (st1 : LineState) :
    ((matchTail o w m fix fw st1).changed = true ↔
      st1.changed = true ∨ (o.write_changes = true ∧ fix = true ∧ w ∉ st1.fixedWords)) := by
  unfold matchTail
  by_cases h1 : w ∈ st1.fixedWords
  · rw [if_pos h1]
    exact ⟨Or.inl, fun h => h.elim id (fun hc => absurd h1 hc.2.2)⟩
  · rw [if_neg h1]
    by_cases h2 : o.write_changes = true ∧ fix = true
    · rw [if_pos h2]
      exact iff_of_true rfl (Or.inr ⟨h2.1, h2.2, h1⟩)
    · rw [if_neg h2]
      have hR : (st1.changed = true
          ∨ (o.write_changes = true ∧ fix = true ∧ w ∉ st1.fixedWords))
          ↔ st1.changed = true :=
        ⟨fun h => h.elim id (fun hc => absurd ⟨hc.1, hc.2.1⟩ h2), Or.inl⟩
      rw [hR]
      repeat' split
      all_goals exact Iff.rfl

theorem matchTail_changed_false {o : Opts} {w : Str} {m : Missp} {fix : Bool} {fw : Str}
    {st1 : LineState} (h : (matchTail o w m fix fw st1).changed = false) :
    st1.changed = false ∧ (matchTail o w m fix fw st1).curLine = st1.curLine := by
  revert h
  unfold matchTail
  repeat' split
  all_goals first
  | exact fun h => ⟨h, rfl⟩
  | exact fun h => Bool.noConfusion h

theorem processMatch_changed_false {o : Opts} {st : LineState} {w : Str}
    (h : (processMatch o st w).changed = false) :
    st.changed = false ∧ (processMatch o st w).curLine = st.curLine := by
  revert h
  cases hm : dictFind st.dict (pyLower w) with
  | none => rw [processMatch_none hm]; exact fun h => ⟨h, rfl⟩
  | some m =>
    by_cases hcond : o.interactive ≠ 0 ∧ pyLower w ∉ st.askedFor
    · rw [processMatch_ask hm hcond]
      exact fun h => matchTail_changed_false h
    · rw [processMatch_stored hm hcond]
      exact fun h => matchTail_changed_false h

theorem foldl_changed_false {o : Opts} :
    ∀ (cms : List Str) (ls : LineState),
      (cms.foldl (processMatch o) ls).changed = false →
      ls.changed = false ∧ (cms.foldl (processMatch o) ls).curLine = ls.curLine
  | [], _, h => ⟨h, rfl⟩
  | w :: cms, ls, h => by
    simp only [List.foldl_cons] at h ⊢
    obtain ⟨h1, h2⟩ := foldl_changed_false cms (processMatch o ls w) h
    obtain ⟨g1, g2⟩ := processMatch_changed_false h1
    exact ⟨g1, h2.trans g2⟩

theorem processLine_changed_false {o : Opts} {uig excl : List Str} {st : FileState} {i : Nat}
    (h : (processLine o uig excl st i).changed = false) :
    st.changed = false ∧ (processLine o uig excl st i).lines = st.lines := by
  revert h
  cases e : st.lines[i]? with
  | none => rw [processLine_none e]; exact fun h => ⟨h, rfl⟩
  | some line =>
    by_cases hexc : line ∈ excl
    · rw [processLine_skip e hexc]; exact fun h => ⟨h, rfl⟩
    · rw [processLine_some e hexc]
      intro h
      obtain ⟨h1, h2⟩ := foldl_changed_false (checkMatchesOf uig line)
        ⟨line, st.dict, st.inputs, [], [], st.changed, st.badCount⟩ h
      refine ⟨h1, ?_⟩
      show st.lines.set i ((checkMatchesOf uig line).foldl (processMatch o)
        ⟨line, st.dict, st.inputs, [], [], st.changed, st.badCount⟩).curLine = st.lines
      rw [h2]
      exact set_self st.lines i line e

theorem foldl_lines_changed_false {o : Opts} {uig excl : List Str} :
    ∀ (idxs : List Nat) (st : FileState),
      (idxs.foldl (processLine o uig excl) st).changed = false →
      st.changed = false ∧ (idxs.foldl (processLine o uig excl) st).lines = st.lines
  | [], _, h => ⟨h, rfl⟩
  | i :: idxs, st, h => by
    simp only [List.foldl_cons] at h ⊢
    obtain ⟨h1, h2⟩ := foldl_lines_changed_false idxs (processLine o uig excl st i) h
    obtain ⟨g1, g2⟩ := processLine_changed_false h1
    exact ⟨g1, h2.trans g2⟩

theorem dictFind_dictSet_self {k : Str} (v : Missp) :
    ∀ (d : Dict), (dictFind d k).isSome = true → dictFind (dictSet d k v) k = some v
  | [], h => Bool.noConfusion h
  | p :: d, h => by
    by_cases hp : p.1 = k
    · show dictFind ((if p.1 = k then (k, v) else p) :: dictSet d k v) k = some v
      rw [if_pos hp]
      show (List.find? (fun q => q.1 = k) ((k, v) :: dictSet d k v)).map (fun q => q.2) = some v
      rw [List.find?_cons_of_pos _ (by simp)]
      rfl
    · have h2 : (dictFind d k).isSome = true := by
        have he : dictFind (p :: d) k = dictFind d k := by
          show (List.find? (fun q => q.1 = k) (p :: d)).map (fun q => q.2)
              = (List.find? (fun q => q.1 = k) d).map (fun q => q.2)
          rw [List.find?_cons_of_neg _ (by simp [hp])]
        rw [he] at h
        exact h
      have h3 := dictFind_dictSet_self v d h2
      show dictFind ((if p.1 = k then (k, v) else p) :: dictSet d k v) k = some v
      rw [if_neg hp]
      show (List.find? (fun q => q.1 = k) (p :: dictSet d k v)).map (fun q => q.2) = some v
      rw [List.find?_cons_of_neg _ (by simp [hp])]
      exact h3

theorem dictFind_dictSet_ne {k kk : Str} (hne : kk ≠ k) (v : Missp) :
    ∀ (d : Dict), dictFind (dictSet d k v) kk = dictFind d kk
  | [] => rfl
  | p :: d => by
    have htail := dictFind_dictSet_ne hne v d
    by_cases hp : p.1 = k
    · show dictFind ((if p.1 = k then (k, v) else p) :: dictSet d k v) kk = dictFind (p :: d) kk
      rw [if_pos hp]
      show (List.find? (fun q => q.1 = kk) ((k, v) :: dictSet d k v)).map (fun q => q.2)
          = (List.find? (fun q => q.1 = kk) (p :: d)).map (fun q => q.2)
      rw [List.find?_cons_of_neg _ (by simp; exact fun h => hne h.symm),
          List.find?_cons_of_neg _ (by simp [hp]; exact fun h => hne h.symm)]
      exact htail
    · show dictFind ((if p.1 = k then (k, v) else p) :: dictSet d k v) kk = dictFind (p :: d) kk
      rw [if_neg hp]
      by_cases hpk : p.1 = kk
      · show (List.find? (fun q => q.1 = kk) (p :: dictSet d k v)).map (fun q => q.2)
            = (List.find? (fun q => q.1 = kk) (p :: d)).map (fun q => q.2)
        rw [List.find?_cons_of_pos _ (by simp [hpk]), List.find?_cons_of_pos _ (by simp [hpk])]
      · show (List.find? (fun q => q.1 = kk) (p :: dictSet d k v)).map (fun q => q.2)
            = (List.find? (fun q => q.1 = kk) (p :: d)).map (fun q => q.2)
        rw [List.find?_cons_of_neg _ (by simp [hpk]), List.find?_cons_of_neg _ (by simp [hpk])]
        exact htail

theorem confirmLoop_N {s : Str} (hs : pyUpper (pyStrip s) = str "N") (rest : List Str) :
    confirmLoop (s :: rest) = (str "N", rest) := by
  have h1 : confirmLoop (s :: rest) =
      (let r0 := pyUpper (pyStrip s)
       let r := if r0 = [] then str "Y" else r0
       if r = str "Y" ∨ r = str "N" then (r, rest) else confirmLoop rest) := rfl
  rw [h1, hs]
  rfl

theorem askForWordFix_declined (w : Str) (m : Missp) {s : Str} {ins : List Str}
    (hin : ∀ t ∈ s :: ins, pyUpper (pyStrip t) = str "N") :
    (askForWordFix w m 1 (s :: ins)).fix = false
    ∧ (askForWordFix w m 1 (s :: ins)).entry.fix = false
    ∧ ins.length ≤ (askForWordFix w m 1 (s :: ins)).rest.length
    ∧ ∀ t ∈ (askForWordFix w m 1 (s :: ins)).rest, pyUpper (pyStrip t) = str "N" := by
  have e1 : askForWordFix w m 1 (s :: ins) =
      (if m.fix = true ∧ (1 : Nat) &&& 1 ≠ 0 then
        let rr := confirmLoop (s :: ins)
        let m2 := if rr.1 = str "N" then { m with fix := false } else m
        (⟨m2, m2.fix, fixCase w m2.data, rr.2⟩ : AskResult)
       else if (1 : Nat) &&& 2 ≠ 0 ∧ m.reason = [] then
        let opt := (splitComma m.data).map pyStrip
        let rr := chooseLoop opt (s :: ins)
        let m2 := match rr.1 with
          | some r => { m with data := r, fix := true }
          | none => m
        (⟨m2, m2.fix, fixCase w m2.data, rr.2⟩ : AskResult)
       else ⟨m, m.fix, fixCase w m.data, s :: ins⟩) := rfl
  by_cases hf : m.fix = true
  · have h1 : askForWordFix w m 1 (s :: ins) =
        ⟨{ m with fix := false }, false, fixCase w m.data, ins⟩ := by
      rw [e1, if_pos ⟨hf, by decide⟩, confirmLoop_N (hin s (List.mem_cons_self s ins))]
      rfl
    rw [h1]
    exact ⟨rfl, rfl, Nat.le_refl _, fun t ht => hin t (List.mem_cons_of_mem s ht)⟩
  · have hf0 : m.fix = false := by
      revert hf
      cases m.fix <;> simp
    have h1 : askForWordFix w m 1 (s :: ins) = ⟨m, m.fix, fixCase w m.data, s :: ins⟩ := by
      rw [e1, if_neg (fun hc => hf hc.1), if_neg (fun hc => absurd hc.1 (by decide))]
    rw [h1]
    refine ⟨hf0, hf0, ?_, hin⟩
    show ins.length ≤ (s :: ins).length
    exact Nat.le_succ ins.length

theorem processMatch_declined {o : Opts} (hi : o.interactive = 1) {st : LineState} (w : Str)
    (hin : ∀ t ∈ st.inputs, pyUpper (pyStrip t) = str "N")
    (hask : ∀ kk ∈ st.askedFor, ∀ mm, dictFind st.dict kk = some mm → mm.fix = false)
    (hne : st.inputs ≠ []) :
    (processMatch o st w).changed = st.changed
    ∧ (processMatch o st w).curLine = st.curLine
    ∧ (∀ t ∈ (processMatch o st w).inputs, pyUpper (pyStrip t) = str "N")
    ∧ (∀ kk ∈ (processMatch o st w).askedFor, ∀ mm,
        dictFind (processMatch o st w).dict kk = some mm → mm.fix = false)
    ∧ st.inputs.length ≤ (processMatch o st w).inputs.length + 1 := by
  cases hm : dictFind st.dict (pyLower w) with
  | none =>
    rw [processMatch_none hm]
    exact ⟨rfl, rfl, hin, hask, Nat.le_succ _⟩
  | some m0 =>
    by_cases hcond : o.interactive ≠ 0 ∧ pyLower w ∉ st.askedFor
    · rw [processMatch_ask hm hcond, hi]
      cases hst : st.inputs with
      | nil => exact absurd hst hne
      | cons s ins =>
        rw [hst] at hin
        obtain ⟨a1, a2, a3, a4⟩ := askForWordFix_declined w m0 hin
        have hnofix : ¬(o.write_changes = true
            ∧ (askForWordFix w m0 1 (s :: ins)).fix = true) := by
          rw [a1]; simp
        obtain ⟨b, hb⟩ := matchTail_nofix hnofix w (askForWordFix w m0 1 (s :: ins)).entry
          (askForWordFix w m0 1 (s :: ins)).fixword
          { st with
              dict := dictSet st.dict (pyLower w) (askForWordFix w m0 1 (s :: ins)).entry,
              inputs := (askForWordFix w m0 1 (s :: ins)).rest,
              askedFor := pyLower w :: st.askedFor }
        rw [hb]
        refine ⟨rfl, rfl, a4, ?_, ?_⟩
        · intro kk hkk mm hmm
          by_cases hkl : kk = pyLower w
          · subst hkl
            have hmm2 : dictFind (dictSet st.dict (pyLower w)
                (askForWordFix w m0 1 (s :: ins)).entry) (pyLower w) = some mm := hmm
            rw [dictFind_dictSet_self (askForWordFix w m0 1 (s :: ins)).entry st.dict
              (by rw [hm]; rfl)] at hmm2
            injection hmm2 with hvm
            rw [← hvm]
            exact a2
          · have hmm2 : dictFind (dictSet st.dict (pyLower w)
                (askForWordFix w m0 1 (s :: ins)).entry) kk = some mm := hmm
            rw [dictFind_dictSet_ne hkl (askForWordFix w m0 1 (s :: ins)).entry st.dict] at hmm2
            rcases List.mem_cons.mp hkk with hk1 | hk2
            · exact absurd hk1 hkl
            · exact hask kk hk2 mm hmm2
        · show (s :: ins).length ≤ (askForWordFix w m0 1 (s :: ins)).rest.length + 1
          simp only [List.length_cons]
          omega
    · rw [processMatch_stored hm hcond]
      have hmem : pyLower w ∈ st.askedFor := by
        by_contra hna
        exact hcond ⟨by simp [hi], hna⟩
      have hfix : m0.fix = false := hask (pyLower w) hmem m0 hm
      have hnofix : ¬(o.write_changes = true ∧ m0.fix = true) := by simp [hfix]
      obtain ⟨b, hb⟩ := matchTail_nofix hnofix w m0 (fixCase w m0.data) st
      rw [hb]
      exact ⟨rfl, rfl, hin, hask, Nat.le_succ _⟩

theorem foldl_declined {o : Opts} (hi : o.interactive = 1) :
    ∀ (cms : List Str) (ls : LineState),
      (∀ t ∈ ls.inputs, pyUpper (pyStrip t) = str "N") →
      (∀ kk ∈ ls.askedFor, ∀ mm, dictFind ls.dict kk = some mm → mm.fix = false) →
      cms.length ≤ ls.inputs.length →
      (cms.foldl (processMatch o) ls).changed = ls.changed
      ∧ (cms.foldl (processMatch o) ls).curLine = ls.curLine
      ∧ (∀ t ∈ (cms.foldl (processMatch o) ls).inputs, pyUpper (pyStrip t) = str "N")
      ∧ (∀ kk ∈ (cms.foldl (processMatch o) ls).askedFor, ∀ mm,
          dictFind (cms.foldl (processMatch o) ls).dict kk = some mm → mm.fix = false)
      ∧ ls.inputs.length ≤ (cms.foldl (processMatch o) ls).inputs.length + cms.length
  | [], ls, hin, hask, _ => ⟨rfl, rfl, hin, hask, by simp⟩
  | w :: cms, ls, hin, hask, hlen => by
    simp only [List.foldl_cons, List.length_cons] at hlen ⊢
    have hne : ls.inputs ≠ [] := by
      intro hnil
      rw [hnil] at hlen
      simp at hlen
    obtain ⟨a1, a2, a3, a4, a5⟩ := processMatch_declined hi w hin hask hne
    obtain ⟨b1, b2, b3, b4, b5⟩ := foldl_declined hi cms (processMatch o ls w) a3 a4 (by omega)
    exact ⟨b1.trans a1, b2.trans a2, b3, b4, by omega⟩

/-- The number of word-pattern matches the scanner processes on line `i`
of the buffer (zero when the index is out of range). -/
def lineCnt (uig : List Str) (lines : List Str) (i : Nat) : Nat :=
  match lines[i]? with
  | some line => (checkMatchesOf uig line).length
  | none => 0

theorem processLine_declined {o : Opts} (hi : o.interactive = 1) (uig excl : List Str)
    (st : FileState) (i : Nat)
    (hin : ∀ t ∈ st.inputs, pyUpper (pyStrip t) = str "N")
    (hlen : lineCnt uig st.lines i ≤ st.inputs.length) :
    (processLine o uig excl st i).changed = st.changed
    ∧ (processLine o uig excl st i).lines = st.lines
    ∧ (∀ t ∈ (processLine o uig excl st i).inputs, pyUpper (pyStrip t) = str "N")
    ∧ st.inputs.length ≤ (processLine o uig excl st i).inputs.length
        + lineCnt uig st.lines i := by
  cases e : st.lines[i]? with
  | none => rw [processLine_none e]; exact ⟨rfl, rfl, hin, Nat.le_add_right _ _⟩
  | some line =>
    by_cases hexc : line ∈ excl
    · rw [processLine_skip e hexc]; exact ⟨rfl, rfl, hin, Nat.le_add_right _ _⟩
    · rw [processLine_some e hexc]
      have hcnt : lineCnt uig st.lines i = (checkMatchesOf uig line).length := by
        unfold lineCnt
        rw [e]
      rw [hcnt] at hlen ⊢
      obtain ⟨f1, f2, f3, f4, f5⟩ := foldl_declined hi (checkMatchesOf uig line)
        ⟨line, st.dict, st.inputs, [], [], st.changed, st.badCount⟩ hin
        (fun kk hkk => absurd hkk (List.not_mem_nil kk)) hlen
      refine ⟨f1, ?_, f3, f5⟩
      show st.lines.set i ((checkMatchesOf uig line).foldl (processMatch o)
        ⟨line, st.dict, st.inputs, [], [], st.changed, st.badCount⟩).curLine = st.lines
      rw [f2]
      exact set_self st.lines i line e

theorem foldl_lines_declined {o : Opts} (uig excl : List Str) (hi : o.interactive = 1) :
    ∀ (idxs : List Nat) (st : FileState),
      (∀ t ∈ st.inputs, pyUpper (pyStrip t) = str "N") →
      (idxs.map (lineCnt uig st.lines)).sum ≤ st.inputs.length →
      (idxs.foldl (processLine o uig excl) st).changed = st.changed
      ∧ (idxs.foldl (processLine o uig excl) st).lines = st.lines
      ∧ (∀ t ∈ (idxs.foldl (processLine o uig excl) st).inputs, pyUpper (pyStrip t) = str "N")
      ∧ st.inputs.length ≤ (idxs.foldl (processLine o uig excl) st).inputs.length
          + (idxs.map (lineCnt uig st.lines)).sum
  | [], st, hin, _ => ⟨rfl, rfl, hin, by simp⟩
  | i :: idxs, st, hin, hlen => by
    simp only [List.foldl_cons, List.map_cons, List.sum_cons] at hlen ⊢
    have hl1 : lineCnt uig st.lines i ≤ st.inputs.length := by omega
    obtain ⟨a1, a2, a3, a4⟩ := processLine_declined hi uig excl st i hin hl1
    have hmap : (idxs.map (lineCnt uig (processLine o uig excl st i).lines)).sum
        = (idxs.map (lineCnt uig st.lines)).sum := by rw [a2]
    obtain ⟨b1, b2, b3, b4⟩ := foldl_lines_declined uig excl hi idxs
      (processLine o uig excl st i) a3 (by rw [hmap]; omega)
    refine ⟨b1.trans a1, b2.trans a2, b3, ?_⟩
    rw [hmap] at b4
    omega

/-- The total number of word-pattern matches the scanner processes over
the whole buffer (the maximal number of standard-input answers one run
over it can consume). -/
def totalMatches (uig : List Str) (lines : List Str) : Nat :=
  (lines.map (fun line => (checkMatchesOf uig line).length)).sum

theorem lineCnt_cons_succ (uig : List Str) (l : Str) (ls : List Str) (i : Nat) :
    lineCnt uig (l :: ls) (i + 1) = lineCnt uig ls i := by
  unfold lineCnt
  rw [List.getElem?_cons_succ]

theorem range_map_lineCnt (uig : List Str) :
    ∀ lines : List Str,
      ((List.range lines.length).map (lineCnt uig lines)).sum = totalMatches uig lines
  | [] => rfl
  | l :: ls => by
    rw [List.length_cons, List.range_succ_eq_map, List.map_cons, List.map_map, List.sum_cons]
    have hcomp : (lineCnt uig (l :: ls)) ∘ Nat.succ = lineCnt uig ls := by
      funext i
      exact lineCnt_cons_succ uig l ls i
    have h0 : lineCnt uig (l :: ls) 0 = (checkMatchesOf uig l).length := by
      unfold lineCnt
      rw [List.getElem?_cons_zero]
    rw [hcomp, range_map_lineCnt uig ls, h0]
    simp [totalMatches]

/-- C8: the scanner rewrites the file on disk only when some match
resolves to an applied affirmative fix decision.  First conjunct: the
changed flag that gates the end-of-file write-back flips at a match
exactly when write mode is on, the resolved decision is positive and the
literal was not already fixed on the line.  Second conjunct: whenever
the flag stays off over a whole file, the line buffer is untouched and
the on-disk content is byte-identical to what was read.  Remaining
conjuncts: the flag provably stays off when write mode is disabled; when
the run is non-interactive and no word matched on any line resolves to
an entry whose automatic fix is on (even with write mode enabled); and
when an interactive confirm run (interactivity 1) declines every prompt
with `N` and the standard input holds at least one answer per match, so
the all-declined round trip leaves the file byte-identical. -/
theorem no_fix_no_write (o : Opts) (uig excl : List Str) (d : Dict) (ins : List Str)
    (lines : List Str) :
    (∀ (w : Str) (m : Missp) (fix : Bool) (fw : Str) (st1 : LineState),
        ((matchTail o w m fix fw st1).changed = true ↔
          st1.changed = true ∨ (o.write_changes = true ∧ fix = true ∧ w ∉ st1.fixedWords)))
    ∧ ((processFile o uig excl d ins lines).changed = false →
        (processFile o uig excl d ins lines).lines = lines
        ∧ finalDisk lines (processFile o uig excl d ins lines) = lines)
    ∧ (o.write_changes = false → (processFile o uig excl d ins lines).changed = false)
    ∧ (o.interactive = 0 →
        (∀ line ∈ lines, ∀ w ∈ checkMatchesOf uig line,
          ∀ m, dictFind d (pyLower w) = some m → m.fix = false) →
        (processFile o uig excl d ins lines).changed = false)
    ∧ (o.interactive = 1 →
        (∀ t ∈ ins, pyUpper (pyStrip t) = str "N") →
        totalMatches uig lines ≤ ins.length →
        (processFile o uig excl d ins lines).changed = false) := by
  refine ⟨matchTail_changed_iff o, ?_, ?_, ?_, ?_⟩
  · intro h
    obtain ⟨-, h2⟩ := foldl_lines_changed_false (List.range lines.length)
      ⟨lines, d, ins, false, 0⟩ h
    refine ⟨h2, ?_⟩
    simp [finalDisk, h]
  · intro hw
    exact (foldl_lines_nowrite hw (List.range lines.length) ⟨lines, d, ins, false, 0⟩).2
  · intro hi hall
    obtain ⟨b, hb⟩ := foldl_lines_nofix_word uig excl hi hall (List.range lines.length)
      ⟨lines, d, ins, false, 0⟩ rfl rfl
    show (processFile o uig excl d ins lines).changed = false
    unfold processFile
    rw [hb]
  · intro hi hin hlen
    obtain ⟨h1, -, -, -⟩ := foldl_lines_declined uig excl hi (List.range lines.length)
      ⟨lines, d, ins, false, 0⟩ hin
      (by show ((List.range lines.length).map (lineCnt uig lines)).sum ≤ ins.length
          rw [range_map_lineCnt uig lines]
          exact hlen)
    exact h1

theorem no_fix_no_write_witness :
    (processFile ⟨true, 1, 0⟩ [] [] [(str "teh", ⟨str "the", true, []⟩)]
        [str "n"] [str "teh"]).changed = false
    ∧ (processFile ⟨true, 1, 0⟩ [] [] [(str "teh", ⟨str "the", true, []⟩)]
        [str "n"] [str "teh"]).lines = [str "teh"]
    ∧ finalDisk [str "teh"]
        (processFile ⟨true, 1, 0⟩ [] [] [(str "teh", ⟨str "the", true, []⟩)]
          [str "n"] [str "teh"])
      = [str "teh"] := by
  have H := no_fix_no_write ⟨true, 1, 0⟩ [] [] [(str "teh", ⟨str "the", true, []⟩)]
    [str "n"] [str "teh"]
  have hch : (processFile ⟨true, 1, 0⟩ [] [] [(str "teh", ⟨str "the", true, []⟩)]
      [str "n"] [str "teh"]).changed = false :=
    H.2.2.2.2 rfl (by decide) (by decide)
  obtain ⟨hl, hd⟩ := H.2.1 hch
  exact ⟨hch, hl, hd⟩

/-! ### C1: what the bad-word counter counts -/

/-- A small run fixture: the dictionary `teh->the` (automatic fix). -/
def tehDict : Dict := [(str "teh", ⟨str "the", true, []⟩)]

/-- A small per-line fixture over `tehDict` with current line `teh`. -/
def tehLS : LineState := ⟨str "teh", tehDict, [], [], [], false, 0⟩

/-- C1 counterexample: a non-suppressed finding (empty reason, both quiet
bits clear, choose-mode off) to which write-mode applies a fix does NOT
increment the bad-word count: the whole run returns 0 although it changed
the file. -/
theorem write_fix_uncounted_cex :
    (processFile ⟨true, 0, 0⟩ [] [] tehDict [] [str "teh"]).badCount = 0
    ∧ (processFile ⟨true, 0, 0⟩ [] [] tehDict [] [str "teh"]).changed = true
    ∧ (⟨str "the", true, []⟩ : Missp).reason = []
    ∧ (⟨true, 0, 0⟩ : Opts).quiet_level &&& QL_NON_AUTOMATIC_FIXES = 0
    ∧ (⟨true, 0, 0⟩ : Opts).quiet_level &&& QL_DISABLED_FIXES = 0
    ∧ (⟨true, 0, 0⟩ : Opts).interactive &&& 2 = 0 := by
  decide

/-- C1 (amended): a finding increments the per-file bad-word count
exactly when it is not suppressed (by the quiet bits or the interactive
choose-mode rule) AND it is not consumed by write-mode fixing — either
fixed now (write mode on with an affirmative decision) or its exact-case
literal already fixed earlier on the line.  Counts only accumulate, so
each increment carries to the value `parse_file` returns (and hence to
the run total). -/
theorem bad_count_characterization :
    (∀ (o : Opts) (st : LineState) (w : Str) (m : Missp),
        o.interactive = 0 → dictFind st.dict (pyLower w) = some m →
        (processMatch o st w).badCount = st.badCount +
          (if w ∉ st.fixedWords ∧ ¬(o.write_changes = true ∧ m.fix = true)
              ∧ (if m.reason ≠ [] then o.quiet_level &&& QL_DISABLED_FIXES = 0
                 else o.quiet_level &&& QL_NON_AUTOMATIC_FIXES = 0)
           then 1 else 0))
    ∧ (∀ (o : Opts) (st : LineState) (w : Str) (m : Missp),
        dictFind st.dict (pyLower w) = some m → pyLower w ∈ st.askedFor →
        (processMatch o st w).badCount = st.badCount +
          (if w ∉ st.fixedWords ∧ ¬(o.write_changes = true ∧ m.fix = true)
              ∧ ¬(o.interactive &&& 2 ≠ 0 ∧ m.fix = false ∧ m.reason = [])
              ∧ (if m.reason ≠ [] then o.quiet_level &&& QL_DISABLED_FIXES = 0
                 else o.quiet_level &&& QL_NON_AUTOMATIC_FIXES = 0)
           then 1 else 0))
    ∧ (∀ (o : Opts) (uig excl : List Str) (st : FileState) (i : Nat),
        st.badCount ≤ (processLine o uig excl st i).badCount) := by
  refine ⟨?_, ?_, ?_⟩
  · intro o st w m hi hm
    rw [processMatch_noninteractive hi hm, matchTail_badCount]
    have h2 : ¬(o.interactive &&& 2 ≠ 0 ∧ m.fix = false ∧ m.reason = []) := by
      rw [hi]
      simp
    congr 1
    simp [h2]
  · intro o st w m hm ha
    rw [processMatch_asked hm ha, matchTail_badCount]
  · intro o uig excl st i
    exact processLine_badCount_le o uig excl st i

theorem bad_count_characterization_witness :
    (processMatch ⟨true, 0, 0⟩ tehLS (str "teh")).badCount =
      tehLS.badCount +
        (if str "teh" ∉ tehLS.fixedWords
            ∧ ¬((⟨true, 0, 0⟩ : Opts).write_changes = true
                ∧ (⟨str "the", true, []⟩ : Missp).fix = true)
            ∧ (if (⟨str "the", true, []⟩ : Missp).reason ≠ []
               then (⟨true, 0, 0⟩ : Opts).quiet_level &&& QL_DISABLED_FIXES = 0
               else (⟨true, 0, 0⟩ : Opts).quiet_level &&& QL_NON_AUTOMATIC_FIXES = 0)
         then 1 else 0) :=
  bad_count_characterization.1 ⟨true, 0, 0⟩ tehLS (str "teh") ⟨str "the", true, []⟩
    rfl (by decide)

/-! ### C2: what the write-mode fix step does -/

/-- Modelled from the spec (`replace the first remaining unescaped
occurrence of the exact-case literal on that line using a whole-word
substitution`): the count-1 variant of the whole-word substitution, for
comparison with the source's global `re.sub`. -/
def subWordFirstGo (w fw orig : Str) : Nat → Nat → Str
  | _, 0 => []
  | i, fuel + 1 =>
    if i < orig.length then
      if boundaryAt orig i ∧ leadsWith w (orig.drop i) ∧
          boundaryAt orig (i + w.length) ∧ w ≠ [] then
        fw ++ orig.drop (i + w.length)
      else orig.getD i ' ' :: subWordFirstGo w fw orig (i + 1) fuel
    else []

/-- Modelled from the spec: replace only the first whole-word occurrence. -/
def subWordFirst (w fw orig : Str) : Str := subWordFirstGo w fw orig 0 (orig.length + 1)

/-- C2 counterexample: on the line `teh teh`, one affirmative fix
decision rewrites BOTH whole-word occurrences at once (`re.sub` replaces
every match, not the first remaining occurrence): the claimed
first-occurrence substitution would give `the teh`, the code gives
`the the`. -/
theorem write_fix_global_sub_cex :
    (processFile ⟨true, 0, 0⟩ [] [] tehDict [] [str "teh teh"]).lines = [str "the the"]
    ∧ subWordFirst (str "teh") (str "the") (str "teh teh") = str "the teh"
    ∧ (str "the the" : Str) ≠ str "the teh" := by
  decide

/-- C2 (amended): when write-mode is enabled and the resolved decision is
to fix, the scanner replaces EVERY remaining whole-word occurrence of the
exact-case literal on that line (a global regex substitution), tracks the
literal as already fixed for the line so subsequent matches of the same
literal are skipped, and marks the file as changed.  The concrete
conjuncts show the substitution is global and respects word boundaries. -/
theorem write_fix_step :
    (∀ (o : Opts) (st : LineState) (w : Str) (m : Missp),
        o.interactive = 0 → dictFind st.dict (pyLower w) = some m →
        o.write_changes = true → m.fix = true → w ∉ st.fixedWords →
        processMatch o st w
          = { st with changed := true,
                      curLine := subWordAll w (fixCase w m.data) st.curLine,
                      fixedWords := w :: st.fixedWords })
    ∧ (∀ (o : Opts) (st : LineState) (w : Str),
        o.interactive = 0 → w ∈ st.fixedWords → processMatch o st w = st)
    ∧ subWordAll (str "teh") (str "the") (str "teh teh") = str "the the"
    ∧ subWordAll (str "teh") (str "the") (str "teh xtehx teh") = str "the xtehx the" := by
  refine ⟨?_, ?_, by decide, by decide⟩
  · intro o st w m hi hm hw hf hnf
    rw [processMatch_noninteractive hi hm]
    unfold matchTail
    rw [if_neg hnf, if_pos ⟨hw, hf⟩]
  · intro o st w hi hfix
    cases hm : dictFind st.dict (pyLower w) with
    | none => exact processMatch_none hm
    | some m =>
      rw [processMatch_noninteractive hi hm]
      unfold matchTail
      rw [if_pos hfix]

theorem write_fix_step_witness :
    processMatch ⟨true, 0, 0⟩ tehLS (str "teh")
      = { tehLS with
            changed := true,
            curLine := subWordAll (str "teh") (fixCase (str "teh") (str "the")) tehLS.curLine,
            fixedWords := str "teh" :: tehLS.fixedWords } :=
  write_fix_step.1 ⟨true, 0, 0⟩ tehLS (str "teh") ⟨str "the", true, []⟩
    rfl (by decide) rfl rfl (by decide)

/-! ### C3: one-for-one URI ignore suppression -/

/-- C3: without the wildcard, the engine applies
`apply_uri_ignore_words` to the full-line match list; each URI-embedded
ignore word removes exactly the first match in line order whose text
equals it (one removal, at the first occurrence; nothing is removed when
no match has that text), so a duplicate of the same literal elsewhere on
the line survives — as the concrete example shows. -/
theorem uri_ignore_one_for_one :
    (∀ (uig : List Str) (line : Str), str "*" ∉ uig →
        checkMatchesOf uig line = applyUriIgnoreWords (tokenize line) line uig)
    ∧ (∀ (w : Str) (pre post : List Str), w ∉ pre →
        removeFirstEq w (pre ++ w :: post) = pre ++ post)
    ∧ (∀ (w : Str) (ms : List Str), w ∈ ms →
        (removeFirstEq w ms).length + 1 = ms.length)
    ∧ (∀ (w : Str) (ms : List Str), w ∉ ms → removeFirstEq w ms = ms)
    ∧ checkMatchesOf [str "foo"] (str "see http://x.com/foo and foo")
        = [str "see", str "http", str "x", str "com", str "and", str "foo"] := by
  refine ⟨?_, ?_, ?_, ?_, by decide⟩
  · intro uig line h
    rw [checkMatchesOf, if_neg h]
  · intro w pre post hpre
    induction pre with
    | nil => simp [removeFirstEq]
    | cons p pre ih =>
      have hpw : p ≠ w := by
        intro h
        exact hpre (by rw [h]; exact List.mem_cons_self _ _)
      simp only [List.cons_append, removeFirstEq, if_neg hpw, List.append_eq]
      rw [ih (fun h => hpre (List.mem_cons_of_mem _ h))]
  · intro w ms hmem
    induction ms with
    | nil => cases hmem
    | cons m ms ih =>
      by_cases hmw : m = w
      · simp [removeFirstEq, hmw]
      · have : w ∈ ms := by
          rcases List.mem_cons.mp hmem with h | h
          · exact absurd h.symm hmw
          · exact h
        simp only [removeFirstEq, if_neg hmw, List.length_cons]
        rw [← ih this]
  · intro w ms hmem
    induction ms with
    | nil => rfl
    | cons m ms ih =>
      have hmw : m ≠ w := by
        intro h
        exact hmem (by rw [h]; exact List.mem_cons_self _ _)
      simp only [removeFirstEq, if_neg hmw]
      rw [ih (fun h => hmem (List.mem_cons_of_mem _ h))]

theorem uri_ignore_one_for_one_witness :
    removeFirstEq (str "foo") ([str "see", str "http"] ++ str "foo" :: [str "and", str "foo"])
      = [str "see", str "http"] ++ [str "and", str "foo"] :=
  uri_ignore_one_for_one.2.1 (str "foo") [str "see", str "http"] [str "and", str "foo"]
    (by decide)

/-! ### C6: wildcard URI erasure is span-based

Structure of the URI match spans produced by the scanner. -/

/-- Well-formedness of a span list: starting at or after `pos`, each span
is non-empty, within the line, and the spans are ordered and disjoint. -/
def ChainOK (len : Nat) : Nat → List (Nat × Nat) → Prop
  | _, [] => True
  | pos, (s, e) :: rest => pos ≤ s ∧ s < e ∧ e ≤ len ∧ ChainOK len e rest

/-- Is position `i` inside one of the spans? -/
def insideAny (spans : List (Nat × Nat)) (i : Nat) : Bool :=
  spans.any (fun se => decide (se.1 ≤ i) && decide (i < se.2))

/-- Length-preserving variant of the span substitution: each span is
replaced by an equal number of spaces (proof intermediate between the
source's `re.sub(" ", ...)` and the positional description). -/
def blankSpansAux (l : Str) : Nat → List (Nat × Nat) → Str
  | pos, [] => l.drop pos
  | pos, (s, e) :: rest => slice l pos s ++ List.replicate (e - s) ' ' ++ blankSpansAux l e rest

/-- Modelled from the spec: "removal is span-based, only the literal
occurrences inside matched URI/email spans are erased" — the line with
exactly the characters inside the given spans blanked out, character by
character. -/
def blankedSpec (l : Str) (spans : List (Nat × Nat)) : Str :=
  (List.range l.length).map (fun i => if insideAny spans i then ' ' else l.getD i ' ')

theorem matchURLAt_bounds {l : Str} {i j : Nat} (h : matchURLAt l i = some j) :
    i < j ∧ j ≤ l.length := by
  rw [matchURLAt] at h
  split at h
  · cases e : uriSchemes.find? (fun sch => leadsWith (sch ++ [':', '/', '/']) (l.drop i)) with
    | none => rw [e] at h; cases h
    | some sch =>
      rw [e] at h
      simp only [] at h
      have hpref : leadsWith (sch ++ [':', '/', '/']) (l.drop i) = true := by
        simpa using List.find?_some e
      have hlen := leadsWith_length hpref
      simp only [List.length_append, List.length_drop, List.length_cons] at hlen
      have hbody := takeWhile_len_le (fun c => !c.isWhitespace) (l.drop (i + sch.length + 3))
      rw [List.length_drop] at hbody
      split at h
      · cases h
      · next hne =>
        cases h
        omega
  · cases h

theorem findEndBoundary_bounds {l : Str} {p : Nat} :
    ∀ {n j : Nat}, findEndBoundary l p n = some j → p < j ∧ j ≤ p + n
  | 0, j => by intro h; cases h
  | n + 1, j => by
    intro h
    rw [findEndBoundary] at h
    split at h
    · cases h
      omega
    · have := findEndBoundary_bounds h
      omega

theorem matchEmailAt_bounds {l : Str} {i j : Nat} (h : matchEmailAt l i = some j) :
    i < j ∧ j ≤ l.length := by
  simp only [matchEmailAt] at h
  split at h
  · split at h
    · cases h
    · split at h
      · next hat =>
        have hin : i + ((l.drop i).takeWhile localChar).length < l.length := by
          by_contra hge
          rw [List.getElem?_eq_none (by omega)] at hat
          cases hat
        have hdom := takeWhile_len_le domainChar
          (l.drop (i + ((l.drop i).takeWhile localChar).length + 1))
        rw [List.length_drop] at hdom
        split at h
        · cases h
        · have := findEndBoundary_bounds h
          omega
      · cases h
  · cases h

theorem matchURIAt_bounds {l : Str} {i j : Nat} (h : matchURIAt l i = some j) :
    i < j ∧ j ≤ l.length := by
  rw [matchURIAt] at h
  cases e : matchURLAt l i with
  | some k =>
    rw [e] at h
    cases h
    exact matchURLAt_bounds e
  | none =>
    rw [e] at h
    exact matchEmailAt_bounds h

theorem ChainOK_mono {len : Nat} :
    ∀ {q pos : Nat} {spans : List (Nat × Nat)}, q ≤ pos →
      ChainOK len pos spans → ChainOK len q spans
  | _, _, [], _, _ => trivial
  | _, _, (_, _) :: _, hq, h => ⟨Nat.le_trans hq h.1, h.2.1, h.2.2.1, h.2.2.2⟩

theorem scanFrom_chain (l : Str) : ∀ (fuel k : Nat), ChainOK l.length k (scanFrom l k fuel)
  | 0, k => by rw [scanFrom]; trivial
  | fuel + 1, k => by
    rw [scanFrom]
    split
    · cases e : matchURIAt l k with
      | some j =>
        obtain ⟨h1, h2⟩ := matchURIAt_bounds e
        exact ⟨Nat.le_refl k, h1, h2, scanFrom_chain l fuel j⟩
      | none =>
        exact ChainOK_mono (Nat.le_succ k) (scanFrom_chain l fuel (k + 1))
    · trivial

theorem scanURIs_chain (l : Str) : ChainOK l.length 0 (scanURIs l) :=
  scanFrom_chain l (l.length + 1) 0

theorem ChainOK_spans {len : Nat} :
    ∀ {pos : Nat} {spans : List (Nat × Nat)}, ChainOK len pos spans →
      ∀ sp ∈ spans, pos ≤ sp.1 ∧ sp.1 < sp.2 ∧ sp.2 ≤ len
  | _, [], _, sp, hsp => absurd hsp (List.not_mem_nil _)
  | pos, (s, e) :: rest, h, sp, hsp => by
    rcases List.mem_cons.mp hsp with rfl | hsp'
    · exact ⟨h.1, h.2.1, h.2.2.1⟩
    · obtain ⟨g1, g2, g3⟩ := ChainOK_spans h.2.2.2 sp hsp'
      have h1 := h.1
      have h2 := h.2.1
      have h3 := h.2.2.1
      exact ⟨by omega, g2, g3⟩

theorem insideAny_false_of_chain {len : Nat} :
    ∀ {pos : Nat} {spans : List (Nat × Nat)} {j : Nat},
      ChainOK len pos spans → j < pos → insideAny spans j = false
  | _, [], _, _, _ => rfl
  | pos, (s, e) :: rest, j, h, hj => by
    have h1 := h.1
    have h2 := h.2.1
    have hrest := insideAny_false_of_chain h.2.2.2 (show j < e by omega)
    simp only [insideAny, List.any_cons] at hrest ⊢
    have hs : ¬(s ≤ j) := by omega
    simp [hs, hrest]

/-! Token invariance: collapsing each blanked span to a single space does
not change the extracted word list. -/

theorem tokensGo_nonword {c : Char} (hc : wordChar c = false) (v acc : Str) :
    tokensGo (c :: v) acc = flushAcc acc (tokensGo v []) := by
  simp [tokensGo, hc]

theorem tokensGo_spaces : ∀ (n : Nat) (v : Str),
    tokensGo (List.replicate n ' ' ++ v) [] = tokensGo v []
  | 0, v => rfl
  | n + 1, v => by
    rw [List.replicate_succ, List.cons_append, tokensGo_nonword (by decide)]
    rw [tokensGo_spaces n v]
    simp [flushAcc]

theorem tokensGo_append_congr {v v' : Str} (h : ∀ a, tokensGo v a = tokensGo v' a) :
    ∀ (u acc : Str), tokensGo (u ++ v) acc = tokensGo (u ++ v') acc
  | [], acc => h acc
  | c :: u, acc => by
    simp only [List.cons_append, tokensGo, List.append_eq]
    split
    · exact tokensGo_append_congr h u (c :: acc)
    · rw [tokensGo_append_congr h u []]

theorem tokens_sub_blank (l : Str) :
    ∀ (spans : List (Nat × Nat)), (∀ sp ∈ spans, sp.1 < sp.2) →
      ∀ (pos : Nat) (acc : Str),
        tokensGo (subSpansAux l [' '] pos spans) acc = tokensGo (blankSpansAux l pos spans) acc
  | [], _, pos, acc => rfl
  | (s, e) :: rest, hlt, pos, acc => by
    have hse : s < e := hlt (s, e) (List.mem_cons_self _ _)
    simp only [subSpansAux, blankSpansAux]
    rw [List.append_assoc, List.append_assoc]
    apply tokensGo_append_congr
    intro a
    obtain ⟨m, hm⟩ : ∃ m, e - s = m + 1 := ⟨e - s - 1, by omega⟩
    rw [hm, List.replicate_succ]
    simp only [List.cons_append, List.nil_append]
    rw [tokensGo_nonword (by decide), tokensGo_nonword (by decide)]
    congr 1
    rw [tokensGo_spaces]
    exact tokens_sub_blank l rest (fun sp hsp => hlt sp (List.mem_cons_of_mem _ hsp)) e []

/-! The length-preserving blanking is exactly the positional erasure. -/

theorem blankAux_getElem? (l : Str) :
    ∀ (spans : List (Nat × Nat)) (pos : Nat), ChainOK l.length pos spans →
      ∀ i : Nat, (blankSpansAux l pos spans)[i]?
        = (l[pos + i]?).map (fun c => if insideAny spans (pos + i) then ' ' else c)
  | [], pos, _, i => by
    simp only [blankSpansAux, List.getElem?_drop]
    cases l[pos + i]? <;> simp [insideAny]
  | (s, e) :: rest, pos, hch, i => by
    obtain ⟨h1, h2, h3, h4⟩ := hch
    have hslice : (slice l pos s).length = s - pos := by
      simp only [slice, List.length_take, List.length_drop]
      omega
    have hlen2 : (slice l pos s ++ List.replicate (e - s) ' ').length
        = (s - pos) + (e - s) := by
      simp [hslice]
    simp only [blankSpansAux]
    by_cases hi1 : i < s - pos
    · rw [List.getElem?_append_left (by rw [hlen2]; omega)]
      rw [List.getElem?_append_left (by rw [hslice]; omega)]
      rw [show slice l pos s = (l.drop pos).take (s - pos) from rfl]
      rw [List.getElem?_take_of_lt hi1, List.getElem?_drop]
      have hins : insideAny ((s, e) :: rest) (pos + i) = false := by
        simp only [insideAny, List.any_cons]
        have hs : ¬(s ≤ pos + i) := by omega
        have hr := insideAny_false_of_chain h4 (show pos + i < e by omega)
        simp only [insideAny] at hr
        simp [hs, hr]
      cases l[pos + i]? with
      | none => simp
      | some c => simp [hins]
    · by_cases hi2 : i < (s - pos) + (e - s)
      · rw [List.getElem?_append_left (by rw [hlen2]; omega)]
        rw [List.getElem?_append_right (by rw [hslice]; omega)]
        rw [hslice]
        rw [List.getElem?_replicate]
        rw [if_pos (by omega : i - (s - pos) < e - s)]
        have hlt : pos + i < l.length := by omega
        have hins : insideAny ((s, e) :: rest) (pos + i) = true := by
          simp only [insideAny, List.any_cons]
          have hs : s ≤ pos + i := by omega
          have he : pos + i < e := by omega
          simp [hs, he]
        rw [List.getElem?_eq_getElem hlt]
        simp [hins]
      · rw [List.getElem?_append_right (by rw [hlen2]; omega)]
        rw [hlen2]
        rw [blankAux_getElem? l rest e h4 (i - ((s - pos) + (e - s)))]
        have harith : e + (i - ((s - pos) + (e - s))) = pos + i := by omega
        rw [harith]
        have hins : insideAny ((s, e) :: rest) (pos + i) = insideAny rest (pos + i) := by
          simp only [insideAny, List.any_cons]
          have he : ¬(pos + i < e) := by omega
          simp [he]
        rw [hins]

theorem blankAux_eq_spec (l : Str) (spans : List (Nat × Nat))
    (h : ChainOK l.length 0 spans) : blankSpansAux l 0 spans = blankedSpec l spans := by
  apply List.ext_getElem?
  intro i
  rw [blankAux_getElem? l spans 0 h i]
  by_cases hi : i < l.length
  · rw [blankedSpec, List.getElem?_map, List.getElem?_range hi]
    rw [Nat.zero_add, List.getElem?_eq_getElem hi]
    simp [List.getElem?_eq_getElem hi]
  · rw [blankedSpec, List.getElem?_map]
    have h1 : (List.range l.length)[i]? = none :=
      List.getElem?_eq_none_iff.mpr (by simp; omega)
    have h2 : l[0 + i]? = none := List.getElem?_eq_none_iff.mpr (by omega)
    rw [h1, h2]
    rfl

/-- C6: with the wildcard in the URI ignore set, the engine tokenizes
`uri_regex.sub(" ", line)`; and that token list equals the token list of
the line with exactly the characters inside the matched URI/email spans
erased (span-based, position-by-position).  So no word lying inside a
span is ever flagged, while an occurrence of the same literal outside
every span survives tokenization unchanged — as the concrete example
shows (`foo` inside the URI vanishes, the standalone `foo` remains). -/
theorem uri_wildcard_span_erasure :
    (∀ (uig : List Str) (l : Str), str "*" ∈ uig →
        checkMatchesOf uig l = tokenize (uriSub l)
        ∧ tokenize (uriSub l) = tokenize (blankedSpec l (scanURIs l)))
    ∧ checkMatchesOf [str "*"] (str "see http://x.com/foo and foo")
        = [str "see", str "and", str "foo"] := by
  constructor
  · intro uig l h
    constructor
    · rw [checkMatchesOf, if_pos h]
    · have hch : ChainOK l.length 0 (scanURIs l) := scanURIs_chain l
      have hlt : ∀ sp ∈ scanURIs l, sp.1 < sp.2 :=
        fun sp hsp => (ChainOK_spans hch sp hsp).2.1
      show tokensGo (uriSub l) [] = tokensGo (blankedSpec l (scanURIs l)) []
      rw [uriSub]
      rw [tokens_sub_blank l (scanURIs l) hlt 0 []]
      rw [blankAux_eq_spec l (scanURIs l) hch]
  · decide

theorem uri_wildcard_span_erasure_witness :
    str "*" ∈ [str "*"]
    ∧ (checkMatchesOf [str "*"] (str "a teh http://x.com/teh b")
        = tokenize (uriSub (str "a teh http://x.com/teh b"))
       ∧ tokenize (uriSub (str "a teh http://x.com/teh b"))
        = tokenize (blankedSpec (str "a teh http://x.com/teh b")
            (scanURIs (str "a teh http://x.com/teh b")))) :=
  ⟨by decide,
    uri_wildcard_span_erasure.1 [str "*"] (str "a teh http://x.com/teh b") (by decide)⟩

end Codespell

